import Mathlib

set_option maxHeartbeats 1000000
set_option maxRecDepth 100000

/-!
Verification of the validator aggregation pipeline of `cosmos-exporter`
(files `validators.go` / `ValidatorsHandler`, `delegator.go` / `DelegatorHandler`).

The development is a shallow embedding of the Go source:

* The validator sort is `sort.Slice(validators, less)`.  `sort.Slice` is Go's
  pattern-defeating quicksort (`sort/zsortfunc.go`, Go 1.19+); it is embedded
  here operation by operation (`insertionSort`, `siftDown`, `heapSort`,
  `breakPatterns`, `choosePivot`, `reverseRange`, `optimisticInsSort` which
  embeds Go's partial insertion-sort pass, `partition`, `partitionEqual`,
  `pdqsort`).  Loops are compiled to structurally recursive functions; where a
  Go loop's iteration count is not the recursion variable itself, an explicit
  fuel argument bounds it and callers pass provably sufficient fuel.
* Machine integers are modelled as `Nat`/`Int`; the xorshift generator used by
  `breakPatterns` works modulo `2 ^ 64` exactly as `uint64` does.
* The per-validator derivation loop of `ValidatorsHandler` (commission /
  status / jailed / token gauges, signing-info join with fallback lookup,
  missed-blocks, rank and active-set emission) is embedded as a pure function
  from an environment (upstream query results) to the list of gauge samples
  set, in emission order.  `float64` values are kept symbolic (`GoFloat`):
  no claim depends on floating-point arithmetic, only on which samples are
  emitted and on their exact integer payloads.
-/

/-! ### List swap, as performed by `reflect.Swapper` via `data.Swap(i, j)` -/

def lswap {α : Type} [Inhabited α] (l : List α) (i j : Nat) : List α :=
  (l.set i l[j]!).set j l[i]!

/-! ### `math/bits.Len` and `nextPowerOfTwo`, used by `sort.Slice` -/

/-- Fueled helper for `bitsLen`; the fuel is an upper bound on the number of
halvings, `bitsLen` passes `n` itself which always suffices. -/
def bitsLenGo : Nat → Nat → Nat
  | 0, _ => 0
  | fuel+1, n => if n = 0 then 0 else bitsLenGo fuel (n / 2) + 1

/-- `math/bits.Len`: the number of bits required to represent `n`. -/
def bitsLen (n : Nat) : Nat := bitsLenGo n n

/-- Go `nextPowerOfTwo(length) = 1 << bits.Len(uint(length))`. -/
def nextPowerOfTwo (length : Nat) : Nat := 1 <<< bitsLen length

/-- One step of Go's xorshift random generator (used by `breakPatterns`),
on `uint64` modelled as `Nat` modulo `2 ^ 64`. -/
def xorshiftNext (r : Nat) : Nat :=
  let r1 := r ^^^ ((r <<< 13) % 2 ^ 64)
  let r2 := r1 ^^^ (r1 >>> 7)
  r2 ^^^ ((r2 <<< 17) % 2 ^ 64)

section PdqSortDefs

variable {α : Type} [Inhabited α] (less : α → α → Bool)

/-! ### Go `sort/zsortfunc.go`, the implementation behind `sort.Slice` -/

/-- Inner loop of Go `insertionSort_func`:
`for j := i; j > a && data.Less(j, j-1); j-- { data.Swap(j, j-1) }`.
The recursion variable is `j` itself (the pattern `j+1` is Go's `j`). -/
def insSortInner (a : Nat) : Nat → List α → List α
  | 0, l => l
  | j+1, l =>
    if a ≤ j ∧ less l[j+1]! l[j]! then insSortInner a j (lswap l (j+1) j) else l

/-- Outer loop of Go `insertionSort_func`: `for i := a + 1; i < b; i++`.
`fuel` bounds the remaining iterations (`insertionSort` passes `b - a`). -/
def insSortOuter (a b : Nat) : Nat → Nat → List α → List α
  | 0, _, l => l
  | fuel+1, i, l =>
    if i < b then insSortOuter a b fuel (i+1) (insSortInner less a i l) else l

/-- Go `insertionSort_func(data, a, b)`. -/
def insertionSort (a b : Nat) (l : List α) : List α :=
  insSortOuter less a b (b - a) (a+1) l

/-- Go `siftDown_func(data, lo, hi, first)`; the root-descent loop, fuel-bounded
(the root at least doubles each step, so `hi` fuel is always enough). -/
def siftDown (hi first : Nat) : Nat → Nat → List α → List α
  | 0, _, l => l
  | fuel+1, root, l =>
    let child := 2 * root + 1
    if child ≥ hi then l
    else
      let child :=
        if child + 1 < hi ∧ less l[first+child]! l[first+child+1]! then child + 1 else child
      if less l[first+root]! l[first+child]! = false then l
      else siftDown hi first fuel child (lswap l (first+root) (first+child))

/-- Heap construction phase of Go `heapSort_func`:
`for i := (hi-1)/2; i >= 0; i--`; the argument counts remaining iterations,
so argument `i+1` performs the iteration with root `i`. -/
def heapSortBuild (hi first : Nat) : Nat → List α → List α
  | 0, l => l
  | i+1, l => heapSortBuild hi first i (siftDown less hi first (hi+1) i l)

/-- Pop phase of Go `heapSort_func`:
`for i := hi-1; i >= 0; i-- { data.Swap(first, first+i); siftDown(data, lo, i, first) }`;
the argument counts remaining iterations (argument `i+1` pops index `i`). -/
def heapSortPop (first : Nat) : Nat → List α → List α
  | 0, l => l
  | i+1, l => heapSortPop first i (siftDown less i first (i+1) 0 (lswap l first (first+i)))

/-- Go `heapSort_func(data, a, b)` (`first = a`, `lo = 0`, `hi = b - a`). -/
def heapSort (a b : Nat) (l : List α) : List α :=
  heapSortPop less a (b - a) (heapSortBuild less (b - a) a ((b - a - 1) / 2 + 1) l)

/-- Loop of Go `reverseRange_func`: `i, j := a, b-1; for i < j { Swap(i, j); i++; j-- }`. -/
def revRangeLoop : Nat → Nat → Nat → List α → List α
  | 0, _, _, l => l
  | fuel+1, i, j, l => if i < j then revRangeLoop fuel (i+1) (j-1) (lswap l i j) else l

/-- Go `reverseRange_func(data, a, b)`. -/
def reverseRange (a b : Nat) (l : List α) : List α := revRangeLoop b a (b-1) l

/-- The three-swap loop of Go `breakPatterns_func`
(`for idx := a + (length/4)*2 - 1; idx <= a + (length/4)*2 + 1; idx++`),
threading the xorshift state. -/
def breakPatternsLoop (a length modulus : Nat) : Nat → Nat → Nat → List α → List α
  | 0, _, _, l => l
  | fuel+1, idx, random, l =>
    if idx ≤ a + length / 4 * 2 + 1 then
      let random := xorshiftNext random
      let other := random % modulus
      let other := if other ≥ length then other - length else other
      breakPatternsLoop a length modulus fuel (idx+1) random (lswap l idx (a + other))
    else l

/-- Go `breakPatterns_func(data, a, b)`: permutes three elements around the
middle of the range using xorshift, to defeat quicksort-adversarial patterns. -/
def breakPatterns (a b : Nat) (l : List α) : List α :=
  let length := b - a
  if length ≥ 8 then
    breakPatternsLoop a length (nextPowerOfTwo length) 4 (a + length / 4 * 2 - 1) length l
  else l

/-- Go's `sortedHint` enumeration. -/
inductive SortedHint where
  | increasingHint
  | decreasingHint
  | unknownHint
deriving DecidableEq, Repr, Inhabited

/-- Go `order2_func(data, a, b, &swaps)`. -/
def order2 (l : List α) (a b swaps : Nat) : Nat × Nat × Nat :=
  if less l[b]! l[a]! then (b, a, swaps + 1) else (a, b, swaps)

/-- Go `median_func(data, a, b, c, &swaps)`: index of the median element
(`r1, r2, r3` are the successive `order2` results of the three exchanges). -/
def median (l : List α) (a b c swaps : Nat) : Nat × Nat :=
  let r1 := order2 less l a b swaps
  let r2 := order2 less l r1.2.1 c r1.2.2
  let r3 := order2 less l r1.1 r2.1 r2.2.2
  (r3.2.1, r3.2.2)

/-- Go `medianAdjacent_func(data, a, &swaps)`: median of `a-1, a, a+1`. -/
def medianAdjacent (l : List α) (a swaps : Nat) : Nat × Nat :=
  median less l (a-1) a (a+1) swaps

/-- Go `choosePivot_func(data, a, b)`: median(-of-medians) pivot selection with
the swap-count based sortedness hint. -/
def choosePivot (l : List α) (a b : Nat) : Nat × SortedHint :=
  let length := b - a
  let i := a + length / 4 * 1
  let j := a + length / 4 * 2
  let k := a + length / 4 * 3
  let js :=
    if length ≥ 8 then
      if length ≥ 50 then
        let i1 := medianAdjacent less l i 0
        let j1 := medianAdjacent less l j i1.2
        let k1 := medianAdjacent less l k j1.2
        median less l i1.1 j1.1 k1.1 k1.2
      else
        median less l i j k 0
    else (j, 0)
  if js.2 = 0 then (js.1, .increasingHint)
  else if js.2 = 12 then (js.1, .decreasingHint)
  else (js.1, .unknownHint)

/-- The sortedness scan of Go `partialInsertionSort_func`:
`for i < b && !data.Less(i, i-1) { i++ }`; returns the final `i`
(no mutation).  `fuel ≥ b - i` always holds for callers. -/
def optimisticScan (b : Nat) : Nat → Nat → List α → Nat
  | 0, i, _ => i
  | fuel+1, i, l =>
    if i < b ∧ less l[i]! l[i-1]! = false then optimisticScan b fuel (i+1) l else i

/-- The left-shift loop of Go `partialInsertionSort_func`:
`for j := i - 1; j >= 1; j-- { if !Less(j, j-1) { break }; Swap(j, j-1) }`.
Note the Go quirk that the bound is the absolute index `1`, not `a + 1`. -/
def shiftLeftGo : Nat → List α → List α
  | 0, l => l
  | j+1, l => if less l[j+1]! l[j]! then shiftLeftGo j (lswap l (j+1) j) else l

/-- The right-shift loop of Go `partialInsertionSort_func`:
`for j := i + 1; j < b; j++ { if !Less(j, j-1) { break }; Swap(j, j-1) }`. -/
def shiftRightGo (b : Nat) : Nat → Nat → List α → List α
  | 0, _, l => l
  | fuel+1, j, l =>
    if j < b ∧ less l[j]! l[j-1]! then shiftRightGo b fuel (j+1) (lswap l j (j-1)) else l

/-- The `maxSteps` outer loop of Go `partialInsertionSort_func`: at most five
out-of-order elements are moved to their place; returns whether the whole
range ended up sorted together with the mutated list. -/
def optimisticInsSortLoop (a b : Nat) : Nat → Nat → List α → Bool × List α
  | 0, _, l => (false, l)
  | steps+1, i, l =>
    let i := optimisticScan less b b i l
    if i = b then (true, l)
    else if b - a < 50 then (false, l)
    else
      let l := lswap l i (i-1)
      let l := if i - a ≥ 2 then shiftLeftGo less (i-1) l else l
      let l := if b - i ≥ 2 then shiftRightGo less b b (i+1) l else l
      optimisticInsSortLoop a b steps i l

/-- Go `partialInsertionSort_func(data, a, b)` (`maxSteps = 5`,
`shortestShifting = 50`): partially sorts the range, returning `true`
exactly when it is fully sorted afterwards. -/
def optimisticInsSort (a b : Nat) (l : List α) : Bool × List α :=
  optimisticInsSortLoop less a b 5 (a+1) l

/-- Scan `for i <= j && data.Less(i, a) { i++ }` of Go `partition_func`
(no mutation; returns the final `i`). -/
def partScanI (l : List α) (a j : Nat) : Nat → Nat → Nat
  | 0, i => i
  | fuel+1, i => if i ≤ j ∧ less l[i]! l[a]! then partScanI l a j fuel (i+1) else i

/-- Scan `for i <= j && !data.Less(j, a) { j-- }` of Go `partition_func`
(no mutation; returns the final `j`). -/
def partScanJ (l : List α) (a i : Nat) : Nat → Nat → Nat
  | 0, j => j
  | fuel+1, j => if i ≤ j ∧ less l[j]! l[a]! = false then partScanJ l a i fuel (j-1) else j

/-- The main two-pointer loop of Go `partition_func`; returns the final `j`
and the mutated list. -/
def partLoop (a : Nat) : Nat → Nat → Nat → List α → Nat × List α
  | 0, _, j, l => (j, l)
  | fuel+1, i, j, l =>
    let i := partScanI less l a j (j+1) i
    let j := partScanJ less l a i (j+1) j
    if i > j then (j, l)
    else partLoop a fuel (i+1) (j-1) (lswap l i j)

/-- Go `partition_func(data, a, b, pivot)`: moves the pivot to `a`, partitions
`[a+1, b)` around it, and places the pivot between the halves; returns
`(newpivot, alreadyPartitioned, data)`. -/
def partition (a b pivot : Nat) (l : List α) : Nat × Bool × List α :=
  let l := lswap l a pivot
  let i := partScanI less l a (b-1) b (a+1)
  let j := partScanJ less l a i b (b-1)
  if i > j then (j, true, lswap l j a)
  else
    let r := partLoop less a b (i+1) (j-1) (lswap l i j)
    (r.1, false, lswap r.2 r.1 a)

/-- Scan `for i <= j && !data.Less(a, i) { i++ }` of Go `partitionEqual_func`. -/
def partEqScanI (l : List α) (a j : Nat) : Nat → Nat → Nat
  | 0, i => i
  | fuel+1, i => if i ≤ j ∧ less l[a]! l[i]! = false then partEqScanI l a j fuel (i+1) else i

/-- Scan `for i <= j && data.Less(a, j) { j-- }` of Go `partitionEqual_func`. -/
def partEqScanJ (l : List α) (a i : Nat) : Nat → Nat → Nat
  | 0, j => j
  | fuel+1, j => if i ≤ j ∧ less l[a]! l[j]! then partEqScanJ l a i fuel (j-1) else j

/-- The two-pointer loop of Go `partitionEqual_func`; returns the final `i`
and the mutated list. -/
def partEqLoop (a : Nat) : Nat → Nat → Nat → List α → Nat × List α
  | 0, i, _, l => (i, l)
  | fuel+1, i, j, l =>
    let i := partEqScanI less l a j (j+1) i
    let j := partEqScanJ less l a i (j+1) j
    if i > j then (i, l)
    else partEqLoop a fuel (i+1) (j-1) (lswap l i j)

/-- Go `partitionEqual_func(data, a, b, pivot)`: gathers the elements
equivalent to the pivot at the front of the range; returns `(newpivot, data)`. -/
def partitionEqual (a b pivot : Nat) (l : List α) : Nat × List α :=
  let l := lswap l a pivot
  partEqLoop less a b (a+1) (b-1) l

/-- Go `pdqsort_func(data, a, b, limit)` (`maxInsertion = 12`).  The outer
`for` loop and the recursive calls are both fuelled by `b - a`, which strictly
decreases along every continuation and recursive call. -/
def pdqsortLoop : Nat → Nat → Nat → Nat → Bool → Bool → List α → List α
  | 0, _, _, _, _, _, l => l
  | fuel+1, a, b, limit, wasBalanced, wasPartitioned, l =>
    let length := b - a
    if length ≤ 12 then insertionSort less a b l
    else if limit = 0 then heapSort less a b l
    else
      let l1 := if wasBalanced = false then breakPatterns a b l else l
      let limit1 := if wasBalanced = false then limit - 1 else limit
      let ph := choosePivot less l1 a b
      let l2 := if ph.2 = .decreasingHint then reverseRange a b l1 else l1
      let pivot := if ph.2 = .decreasingHint then (b - 1) - (ph.1 - a) else ph.1
      let hint := if ph.2 = .decreasingHint then SortedHint.increasingHint else ph.2
      let sl :=
        if wasBalanced = true ∧ wasPartitioned = true ∧ hint = .increasingHint then
          optimisticInsSort less a b l2
        else (false, l2)
      if sl.1 = true then sl.2
      else if 0 < a ∧ less sl.2[a-1]! sl.2[pivot]! = false then
        let pr := partitionEqual less a b pivot sl.2
        pdqsortLoop fuel pr.1 b limit1 wasBalanced wasPartitioned pr.2
      else
        let pr := partition less a b pivot sl.2
        let leftLen := pr.1 - a
        let rightLen := b - pr.1
        let balanceThreshold := length / 8
        let wasBalanced1 := decide (min leftLen rightLen ≥ balanceThreshold)
        if leftLen < rightLen then
          pdqsortLoop fuel (pr.1+1) b limit1 wasBalanced1 pr.2.1
            (pdqsortLoop fuel a pr.1 limit1 true true pr.2.2)
        else
          pdqsortLoop fuel a pr.1 limit1 wasBalanced1 pr.2.1
            (pdqsortLoop fuel (pr.1+1) b limit1 true true pr.2.2)

/-- Go `pdqsort_func(data, a, b, limit)`. -/
def pdqsort (a b limit : Nat) (l : List α) : List α :=
  pdqsortLoop less (b - a) a b limit true true l

/-- Go `sort.Slice(x, less)`:
`length := len(x); limit := bits.Len(uint(length)); pdqsort_func(..., 0, length, limit)`. -/
def goSortSlice (l : List α) : List α :=
  pdqsort less 0 l.length (bitsLen l.length) l

end PdqSortDefs

/-! ### The cosmos-exporter data model (from `ValidatorsHandler`)

`stakingtypes.Validator` fields actually used by the handler.  `sdk.Dec` /
`sdk.Int` amounts appear in two roles: `DelegatorShares.BigInt()` (the raw
`10^18`-scaled integer, used only by the sort comparator) is modelled as `Int`;
the `.String()` forms passed to `strconv.ParseFloat` are kept as the strings
themselves, with parse success decided by the environment. -/

/-- The consensus address derived by `validator.GetConsAddr()`:
`str` is `pubKey.String()` (bech32), `hexUpper` is
`strings.ToUpper(hex.EncodeToString(pubKey.Bytes()))`. -/
structure ConsAddr where
  str : String
  hexUpper : String
deriving DecidableEq, Repr, Inhabited

/-- The zero `sdk.ConsAddress` (nil bytes), left in `pubKey` when
`validator.GetConsAddr()` fails: its bech32 `String()` is `""` and the hex
encoding of its nil `Bytes()` is `""`. -/
def zeroConsAddr : ConsAddr := ⟨"", ""⟩

/-- `stakingtypes.Validator`, restricted to the fields the handler reads.
`status` is the `BondStatus` enum value (`Bonded = 3`); `consAddr = none`
models `validator.GetConsAddr()` returning an error. -/
structure Validator where
  operatorAddress : String
  moniker : String
  status : Nat
  jailed : Bool
  commissionRateStr : String
  tokensStr : String
  delegatorShares : Int
  delegatorSharesStr : String
  minSelfDelegationStr : String
  consAddr : Option ConsAddr
deriving DecidableEq, Repr, Inhabited

/-- `stakingtypes.Bonded` (`BondStatus` enum value 3). -/
def bondedStatus : Nat := 3

/-- `validator.IsBonded()`: `status == stakingtypes.Bonded`. -/
def Validator.isBonded (v : Validator) : Bool := v.status == bondedStatus

/-- The comparator closure passed to `sort.Slice` (lines 170–178):
bonded validators first, then descending comparison of
`DelegatorShares.BigInt()` as exact arbitrary-precision integers
(`.Cmp(...) > 0`) — never via floating point. -/
def validatorLess (a b : Validator) : Bool :=
  if a.isBonded = false ∧ b.isBonded = true then false
  else if a.isBonded = true ∧ b.isBonded = false then true
  else a.delegatorShares > b.delegatorShares

/-- Line 170: `sort.Slice(validators, ...)` with the comparator above. -/
def sortValidators (l : List Validator) : List Validator :=
  goSortSlice validatorLess l

/-- `slashingtypes.ValidatorSigningInfo`, restricted to the fields used. -/
structure SigningInfo where
  address : String
  missedBlocksCounter : Int
deriving DecidableEq, Repr, Inhabited

/-- The exporter configuration fields the handler reads (besides the gauge
boilerplate): the denomination label.  `config.Limit` (the page size of
upstream queries) and `config.DenomCoefficient` are absorbed into the
environment / symbolic float values respectively. -/
structure Config where
  denom : String
deriving DecidableEq, Repr, Inhabited

/-- A `float64` value as produced by the handler, kept symbolic: the claims
only inspect exact-integer payloads and emission presence, never
floating-point arithmetic.  `ofInt n` is `float64(n)`; `parsed s` is
`strconv.ParseFloat(s, 64)`; `scaledBy s` is
`strconv.ParseFloat(s, 64) / config.DenomCoefficient`. -/
inductive GoFloat where
  | ofInt (n : Int)
  | parsed (s : String)
  | scaledBy (s : String)
deriving DecidableEq, Repr, Inhabited

/-- The gauges registered by `ValidatorsHandler` (and the delegator gauge). -/
inductive Gauge where
  | commission
  | status
  | jailed
  | tokens
  | delegatorShares
  | minSelfDelegation
  | missedBlocks
  | rank
  | active
  | delegatorTotal
deriving DecidableEq, Repr, Inhabited

/-- One `gauge.With(labels).Set(value)` call, in emission order. -/
structure Sample where
  gauge : Gauge
  labels : List (String × String)
  value : GoFloat
deriving DecidableEq, Repr, Inhabited

/-- The upstream environment of one `ValidatorsHandler` request: results of
the gRPC queries the handler may issue.  `none` models a query error. -/
structure Env where
  validatorsPage : Nat → Option (List Validator)
  signingInfoPages : Nat → Option (List SigningInfo)
  signingInfoLookup : String → Option SigningInfo
  stakingParams : Option Nat
  parseOk : String → Bool

/-- The paginated collection loop of the validators goroutine (lines 140–163):
fetch the page at `offset`, stop with the items accumulated so far on error
(`true` flags the error return, which in the source skips the sort) or on an
empty page, else append and continue with `offset = len(validators)`.
The fuel bounds the number of pages fetched. -/
def paginatedCollect {β : Type} (page : Nat → Option (List β)) :
    Nat → Nat → List β → List β × Bool
  | 0, _, acc => (acc, false)
  | fuel+1, offset, acc =>
    match page offset with
    | none => (acc, true)
    | some items =>
      if items.isEmpty then (acc, false)
      else paginatedCollect page fuel (acc ++ items).length (acc ++ items)

/-- The validators goroutine (lines 132–179): paginated collection, then —
only when no page fetch failed, since the error path `return`s before line
170 — the `sort.Slice` call. -/
def validatorsFetch (env : Env) (fuel : Nat) : List Validator :=
  let r := paginatedCollect env.validatorsPage fuel 0 []
  if r.2 then r.1 else sortValidators r.1

/-- The signing-infos goroutine (lines 181–207): a single
`slashingClient.SigningInfos` call with `PageRequest{Limit: config.Limit}`
(offset absent, i.e. `0`) — not a pagination loop.  On error `signingInfos`
keeps its zero value `nil`. -/
def signingInfosFetch (env : Env) : List SigningInfo :=
  (env.signingInfoPages 0).getD []

/-- The staking-params goroutine (lines 209–231): `validatorSetLength` is a
`uint32` with zero value `0`, assigned only on query success. -/
def maxValidatorsOf (env : Env) : Nat :=
  env.stakingParams.getD 0

/-- The bulk signing-info scan (lines 335–341): first entry of `signingInfos`
whose `Address` equals `pubKey.String()`. -/
def findSigningInfo (signingInfos : List SigningInfo) (addr : String) : Option SigningInfo :=
  signingInfos.find? (fun si => addr == si.address)

/-- The signing-info resolution for one validator (lines 332–357): the bulk
match if present, otherwise the fallback single `SigningInfo` query keyed by
`pubKey.String()`; `none` is the fallback-error path, which in the source
`continue`s to the next validator. -/
def resolveSigningInfo (env : Env) (signingInfos : List SigningInfo)
    (pubKey : ConsAddr) : Option SigningInfo :=
  match findSigningInfo signingInfos pubKey.str with
  | some si => some si
  | none => env.signingInfoLookup pubKey.str

/-- Lines 243–314: the per-validator gauge emissions that precede the
signing-info join — commission (if its `ParseFloat` succeeds), status, jailed,
and the three scaled amounts (each only if its `ParseFloat` succeeds). -/
def baseSamples (cfg : Config) (env : Env) (v : Validator) : List Sample :=
  (if env.parseOk v.commissionRateStr then
    [⟨.commission, [("address", v.operatorAddress), ("moniker", v.moniker)],
      .parsed v.commissionRateStr⟩]
   else []) ++
  [⟨.status, [("address", v.operatorAddress), ("moniker", v.moniker)],
    .ofInt v.status⟩,
   ⟨.jailed, [("address", v.operatorAddress), ("moniker", v.moniker)],
    .ofInt (if v.jailed then 1 else 0)⟩] ++
  (if env.parseOk v.tokensStr then
    [⟨.tokens, [("address", v.operatorAddress), ("moniker", v.moniker), ("denom", cfg.denom)],
      .scaledBy v.tokensStr⟩]
   else []) ++
  (if env.parseOk v.delegatorSharesStr then
    [⟨.delegatorShares,
      [("address", v.operatorAddress), ("moniker", v.moniker), ("denom", cfg.denom)],
      .scaledBy v.delegatorSharesStr⟩]
   else []) ++
  (if env.parseOk v.minSelfDelegationStr then
    [⟨.minSelfDelegation,
      [("address", v.operatorAddress), ("moniker", v.moniker), ("denom", cfg.denom)],
      .scaledBy v.minSelfDelegationStr⟩]
   else [])

/-- Lines 241–394, one iteration of `for index, validator := range validators`:
emits the base samples; derives `pubKey` (the zero consensus address when
`GetConsAddr` failed, whose `String()` is `""`); resolves signing info, and on
fallback failure `continue`s (skipping missed-blocks, rank and active);
otherwise emits missed-blocks (only when `Status == Bonded`), rank
(`index + 1`), and — when `validatorSetLength != 0` — the active flag
(`1`, forced to `0` if jailed or if the active-set counter has reached
`maxValidators`), incrementing the counter by the emitted flag.
Returns (samples of this iteration, updated `activeValidators`). -/
def processValidator (cfg : Config) (env : Env) (signingInfos : List SigningInfo)
    (maxV index : Nat) (v : Validator) (activeValidators : Nat) :
    List Sample × Nat :=
  let base := baseSamples cfg env v
  let pubKey := v.consAddr.getD zeroConsAddr
  match resolveSigningInfo env signingInfos pubKey with
  | none => (base, activeValidators)
  | some si =>
    let missed :=
      if v.status == bondedStatus then
        [⟨.missedBlocks, [("address", v.operatorAddress), ("moniker", v.moniker)],
          .ofInt si.missedBlocksCounter⟩]
      else []
    let rank : List Sample :=
      [⟨.rank, [("address", v.operatorAddress), ("moniker", v.moniker)],
        .ofInt (index + 1 : Nat)⟩]
    if maxV ≠ 0 then
      let active : Nat := 1
      let active := if v.jailed then 0 else active
      let active := if activeValidators = maxV then 0 else active
      (base ++ missed ++ rank ++
        [⟨.active,
          [("address", v.operatorAddress), ("moniker", v.moniker),
           ("pubkey_hash", pubKey.hexUpper)],
          .ofInt active⟩],
       activeValidators + active)
    else (base ++ missed ++ rank, activeValidators)

/-- The full `for index, validator := range validators` loop (lines 240–394),
threading `activeValidators` and concatenating the emissions in order. -/
def runLoop (cfg : Config) (env : Env) (signingInfos : List SigningInfo)
    (maxV : Nat) : Nat → Nat → List Validator → List Sample
  | _, _, [] => []
  | index, activeValidators, v :: rest =>
    let r := processValidator cfg env signingInfos maxV index v activeValidators
    r.1 ++ runLoop cfg env signingInfos maxV (index+1) r.2 rest

/-- `ValidatorsHandler` (the aggregation core): the three concurrent fetches
joined by `wg.Wait()`, then the single-pass derivation over the (sorted,
unless the validators fetch errored) validator list, starting with
`activeValidators = 0`. -/
def validatorsHandler (cfg : Config) (env : Env) (fuel : Nat) : List Sample :=
  runLoop cfg env (signingInfosFetch env) (maxValidatorsOf env) 0 0
    (validatorsFetch env fuel)

/-- The samples of one gauge, in emission order. -/
def samplesFor (g : Gauge) (ss : List Sample) : List Sample :=
  ss.filter (fun s => s.gauge == g)

/-- The `"address"` label of a sample (`""` if absent). -/
def addrOf (s : Sample) : String :=
  ((s.labels.find? (fun p => p.1 == "address")).map Prod.snd).getD ""

/-- The `"pubkey_hash"` label of a sample (`""` if absent). -/
def pubkeyHashOf (s : Sample) : String :=
  ((s.labels.find? (fun p => p.1 == "pubkey_hash")).map Prod.snd).getD ""

/-- The integer payloads of the rank samples, in emission order. -/
def rankValues (ss : List Sample) : List Int :=
  (samplesFor .rank ss).map (fun s => match s.value with | .ofInt n => n | _ => 0)

/-- The number of samples asserting active-set membership (`active == 1`). -/
def activeOneCount (ss : List Sample) : Nat :=
  (ss.filter (fun s => s.gauge == Gauge.active && s.value == GoFloat.ofInt 1)).length

/-! ### `DelegatorHandler` (`delegator.go`) -/

/-- The environment of one `DelegatorHandler` request:
the `validator_address` query parameter, the `sdk.ValAddressFromBech32`
parse (`none` = error; `some s` carries `valAddress.String()`), and the
`ValidatorDelegations` query result (`some n` = `len(DelegationResponses)`). -/
structure DelegatorEnv where
  validatorAddressParam : String
  valAddressFromBech32 : String → Option String
  validatorDelegations : String → Option Nat

/-- The observable effects of one `DelegatorHandler` request: gauges
registered, upstream queries issued (by validator address), samples set, and
whether the metrics exposition body was written (`promhttp ... ServeHTTP`). -/
structure DelegatorResult where
  registeredGauges : List String
  upstreamQueries : List String
  samples : List Sample
  bodyWritten : Bool
deriving DecidableEq, Repr, Inhabited

/-- `DelegatorHandler` (lines 16–92): on a bech32 parse error it logs and
`return`s before the gauge is created, the registry built, the goroutine
launched or the response served; otherwise it registers the gauge, issues the
one delegations query (setting the gauge only on success) and serves the
registry. -/
def delegatorHandler (env : DelegatorEnv) : DelegatorResult :=
  match env.valAddressFromBech32 env.validatorAddressParam with
  | none => ⟨[], [], [], false⟩
  | some valAddress =>
    let samples :=
      match env.validatorDelegations valAddress with
      | none => []
      | some n =>
        [⟨.delegatorTotal, [("validator_address", env.validatorAddressParam)],
          .ofInt (n : Int)⟩]
    ⟨["cosmos_validator_delegator_total"], [valAddress], samples, true⟩

/-! ### Auxiliary predicates used by the claim statements and proofs -/

/-- Whether the signing-info resolution of lines 332–357 succeeds for `v`
(bulk match or successful fallback lookup); when it fails the source
`continue`s, skipping missed-blocks, rank and active emission. -/
def resolvesOk (env : Env) (signingInfos : List SigningInfo) (v : Validator) : Bool :=
  (resolveSigningInfo env signingInfos (v.consAddr.getD zeroConsAddr)).isSome

/-- `r` agrees with `l` outside `[a, b)` (and has the same length). -/
def SameOuter {α : Type} [Inhabited α] (l r : List α) (a b : Nat) : Prop :=
  r.length = l.length ∧ ∀ k, k < a ∨ b ≤ k → r[k]! = l[k]!

/-- `r` is a permutation of `l` that only moves elements inside `[a, b)`. -/
def RangeOp {α : Type} [Inhabited α] (l r : List α) (a b : Nat) : Prop :=
  r.length = l.length ∧ (∀ k, k < a ∨ b ≤ k → r[k]! = l[k]!) ∧ r.Perm l

/-- Pairwise sortedness of the range `[a, b)` with respect to `less`:
no later element is `less` than an earlier one. -/
def SortedRg {α : Type} [Inhabited α] (less : α → α → Bool) (l : List α) (a b : Nat) : Prop :=
  ∀ i j, a ≤ i → i < j → j < b → less l[j]! l[i]! = false

/-- Adjacent sortedness of the range `[a, b)`. -/
def AdjSortedRg {α : Type} [Inhabited α] (less : α → α → Bool) (l : List α) (a b : Nat) : Prop :=
  ∀ k, a < k → k < b → less l[k]! l[k-1]! = false

/-- The pdqsort outer invariant: when `0 < a`, the element just below the
range is a lower bound for the whole range (it is a pivot finally placed by
an enclosing partition step). -/
def LowGuard {α : Type} [Inhabited α] (less : α → α → Bool) (l : List α) (a b : Nat) : Prop :=
  ∀ k, a ≤ k → k < b → 0 < a → less l[k]! l[a-1]! = false

/-- Max-heap edges of Go `heapSort_func` for all parents `≥ cut`
(offsets are relative to `first`, children of `p` are `2p+1, 2p+2`). -/
def HeapAbove {α : Type} [Inhabited α] (less : α → α → Bool)
    (l : List α) (first hi cut : Nat) : Prop :=
  ∀ c, 1 ≤ c → c < hi → cut ≤ (c-1)/2 → less l[first + (c-1)/2]! l[first + c]! = false

/-- Pop-phase invariant of Go `heapSort_func`: every position in `[i, hi)`
(relative to `first`) dominates all positions below it. -/
def SuffixMax {α : Type} [Inhabited α] (less : α → α → Bool)
    (l : List α) (first i hi : Nat) : Prop :=
  ∀ k, i ≤ k → k < hi → ∀ m, m < k → less l[first+k]! l[first+m]! = false

/-! ### Concrete inputs for the counterexamples and witnesses -/

/-- A validator with the given address/moniker, status, raw share amount,
jailed flag and consensus address; the string amounts are representative
`sdk.Dec`/`sdk.Int` renderings. -/
def mkVal (name : String) (status : Nat) (shares : Int) (jailed : Bool)
    (ca : Option ConsAddr) : Validator :=
  { operatorAddress := name, moniker := name, status := status, jailed := jailed,
    commissionRateStr := "0.100000000000000000", tokensStr := "1000000",
    delegatorShares := shares, delegatorSharesStr := "1000000.000000000000000000",
    minSelfDelegationStr := "1", consAddr := ca }

/-- Thirteen bonded validators, twelve of them with equal delegator shares:
the smallest input on which Go's `sort.Slice` (array length > 12, so the
insertion-sort fast path no longer applies) reorders equal elements. -/
def cexC2List : List Validator :=
  [mkVal "v0" 3 0 false (some ⟨"c0", "H0"⟩), mkVal "v1" 3 0 false (some ⟨"c1", "H1"⟩),
   mkVal "v2" 3 0 false (some ⟨"c2", "H2"⟩), mkVal "v3" 3 0 false (some ⟨"c3", "H3"⟩),
   mkVal "v4" 3 0 false (some ⟨"c4", "H4"⟩), mkVal "v5" 3 0 false (some ⟨"c5", "H5"⟩),
   mkVal "v6" 3 0 false (some ⟨"c6", "H6"⟩), mkVal "v7" 3 0 false (some ⟨"c7", "H7"⟩),
   mkVal "v8" 3 0 false (some ⟨"c8", "H8"⟩), mkVal "v9" 3 0 false (some ⟨"c9", "H9"⟩),
   mkVal "v10" 3 0 false (some ⟨"c10", "H10"⟩), mkVal "v11" 3 0 false (some ⟨"c11", "H11"⟩),
   mkVal "v12" 3 1 false (some ⟨"c12", "H12"⟩)]

/-- Environment for the C3 counterexample: two bonded validators; the bulk
signing-info set only covers the first, and the fallback lookup fails. -/
def cexC3Env : Env :=
  { validatorsPage := fun o =>
      if o = 0 then some [mkVal "a" 3 1000 false (some ⟨"ca", "HA"⟩),
                          mkVal "b" 3 500 false (some ⟨"cb", "HB"⟩)]
      else some []
    signingInfoPages := fun o => if o = 0 then some [⟨"ca", 5⟩] else some []
    signingInfoLookup := fun _ => none
    stakingParams := some 10
    parseOk := fun _ => true }

/-- Environment for the C4 counterexample: `max-validators = 1`; a non-jailed
bonded validator followed by a jailed one whose signing-info resolution
fails, so the jailed validator is skipped before the active-set step. -/
def cexC4Env : Env :=
  { validatorsPage := fun o =>
      if o = 0 then some [mkVal "a" 3 1000 false (some ⟨"ca", "HA"⟩),
                          mkVal "b" 3 500 true (some ⟨"cb", "HB"⟩)]
      else some []
    signingInfoPages := fun o => if o = 0 then some [⟨"ca", 5⟩] else some []
    signingInfoLookup := fun _ => none
    stakingParams := some 1
    parseOk := fun _ => true }

/-- Environment for the C7 counterexample: the upstream signing-info set has
two non-empty pages, but the handler's single bounded query only ever sees
page 0. -/
def cexC7Env : Env :=
  { validatorsPage := fun o => if o = 0 then some [] else some []
    signingInfoPages := fun o =>
      if o = 0 then some [⟨"s1", 1⟩] else if o = 1 then some [⟨"s2", 2⟩] else some []
    signingInfoLookup := fun _ => none
    stakingParams := some 10
    parseOk := fun _ => true }

/-- Environment for the C8 counterexample: page 0 returns a non-bonded
validator ahead of a bonded one, and the next page fetch fails, so the
error path skips the `sort.Slice` call. -/
def cexC8Env : Env :=
  { validatorsPage := fun o =>
      if o = 0 then some [mkVal "u" 1 9999 false (some ⟨"cu", "HU"⟩),
                          mkVal "w" 3 1 false (some ⟨"cw", "HW"⟩)]
      else none
    signingInfoPages := fun o => if o = 0 then some [⟨"cu", 5⟩, ⟨"cw", 6⟩] else some []
    signingInfoLookup := fun _ => none
    stakingParams := some 10
    parseOk := fun _ => true }

/-- Environment for the C9 counterexample: a single validator whose
consensus-address derivation fails; no signing info matches the resulting
empty address and the fallback lookup for it fails as well. -/
def cexC9Env : Env :=
  { validatorsPage := fun o =>
      if o = 0 then some [mkVal "d" 3 1000 false none] else some []
    signingInfoPages := fun o => if o = 0 then some [⟨"cx", 5⟩] else some []
    signingInfoLookup := fun _ => none
    stakingParams := some 10
    parseOk := fun _ => true }

/-- A benign single-validator environment (successful resolution), used by
witnesses. -/
def okEnv : Env :=
  { validatorsPage := fun o =>
      if o = 0 then some [mkVal "a" 3 1000 false (some ⟨"ca", "HA"⟩)] else some []
    signingInfoPages := fun o => if o = 0 then some [⟨"ca", 5⟩] else some []
    signingInfoLookup := fun _ => none
    stakingParams := none
    parseOk := fun _ => true }

/-- Delegator-endpoint environment whose `validator_address` parameter is not
valid bech32 (the parse errors), used by the C10 witness. -/
def cexDelegatorEnv : DelegatorEnv :=
  { validatorAddressParam := "not-a-bech32-address"
    valAddressFromBech32 := fun _ => none
    validatorDelegations := fun _ => some 3 }

/-- Samples other than the active gauge (used to state that the active-set
feature does not influence the rest of the emission). -/
def samplesExceptActive (ss : List Sample) : List Sample :=
  ss.filter (fun s => !(s.gauge == Gauge.active))

/-- Two validators (one non-bonded with larger shares, one bonded with
smaller shares), the concrete instance for the sort-contract witness. -/
def c1WitnessList : List Validator :=
  [mkVal "w0" 1 5 false none, mkVal "w1" 3 2 false none]

/-! ## Theorems -/

/-! ### Emission-shape lemmas for the per-validator loop -/


theorem samplesFor_append (g : Gauge) (xs ys : List Sample) :
    samplesFor g (xs ++ ys) = samplesFor g xs ++ samplesFor g ys := by
  simp [samplesFor, List.filter_append]

theorem samplesFor_base_rank (cfg : Config) (env : Env) (v : Validator) :
    samplesFor .rank (baseSamples cfg env v) = [] := by
  unfold baseSamples samplesFor; split_ifs <;> rfl

theorem samplesFor_base_active (cfg : Config) (env : Env) (v : Validator) :
    samplesFor .active (baseSamples cfg env v) = [] := by
  unfold baseSamples samplesFor; split_ifs <;> rfl

theorem samplesFor_base_missed (cfg : Config) (env : Env) (v : Validator) :
    samplesFor .missedBlocks (baseSamples cfg env v) = [] := by
  unfold baseSamples samplesFor; split_ifs <;> rfl

theorem samplesFor_base_status (cfg : Config) (env : Env) (v : Validator) :
    samplesFor .status (baseSamples cfg env v) =
      [⟨.status, [("address", v.operatorAddress), ("moniker", v.moniker)], .ofInt v.status⟩] := by
  unfold baseSamples samplesFor; split_ifs <;> rfl

theorem processValidator_rank (cfg : Config) (env : Env) (si : List SigningInfo)
    (maxV i : Nat) (v : Validator) (a : Nat) :
    samplesFor .rank (processValidator cfg env si maxV i v a).1 =
      if resolvesOk env si v then
        [⟨.rank, [("address", v.operatorAddress), ("moniker", v.moniker)],
          .ofInt (i + 1 : Nat)⟩]
      else [] := by
  unfold processValidator resolvesOk
  cases h : resolveSigningInfo env si (v.consAddr.getD zeroConsAddr) with
  | none => simp only [h]; simp [samplesFor_base_rank]
  | some s_i =>
    simp only [h, Option.isSome_some, if_pos]
    split_ifs <;>
      first
      | contradiction
      | (simp only [samplesFor_append, samplesFor_base_rank, List.nil_append]
         simp [samplesFor])

theorem processValidator_status (cfg : Config) (env : Env) (si : List SigningInfo)
    (maxV i : Nat) (v : Validator) (a : Nat) :
    samplesFor .status (processValidator cfg env si maxV i v a).1 =
      [⟨.status, [("address", v.operatorAddress), ("moniker", v.moniker)], .ofInt v.status⟩] := by
  unfold processValidator
  cases h : resolveSigningInfo env si (v.consAddr.getD zeroConsAddr) with
  | none => simp only [h]; rw [samplesFor_base_status]
  | some s_i =>
    simp only [h]
    split_ifs <;>
      first
      | contradiction
      | (simp only [samplesFor_append, samplesFor_base_status, List.nil_append]
         simp [samplesFor])

theorem processValidator_missed (cfg : Config) (env : Env) (si : List SigningInfo)
    (maxV i : Nat) (v : Validator) (a : Nat) :
    samplesFor .missedBlocks (processValidator cfg env si maxV i v a).1 =
      (match resolveSigningInfo env si (v.consAddr.getD zeroConsAddr),
             v.status == bondedStatus with
       | some s_i, true =>
         [⟨.missedBlocks, [("address", v.operatorAddress), ("moniker", v.moniker)],
           .ofInt s_i.missedBlocksCounter⟩]
       | _, _ => []) := by
  unfold processValidator
  cases h : resolveSigningInfo env si (v.consAddr.getD zeroConsAddr) with
  | none => simp only [h]; rw [samplesFor_base_missed]
  | some s_i =>
    simp only [h]
    cases hb : v.status == bondedStatus <;> simp only [hb] <;>
      split_ifs <;>
      first
      | contradiction
      | (simp only [samplesFor_append, samplesFor_base_missed, List.nil_append]
         simp [samplesFor])

theorem processValidator_active_zero (cfg : Config) (env : Env) (si : List SigningInfo)
    (i : Nat) (v : Validator) (a : Nat) :
    samplesFor .active (processValidator cfg env si 0 i v a).1 = [] ∧
    (processValidator cfg env si 0 i v a).2 = a := by
  unfold processValidator
  cases h : resolveSigningInfo env si (v.consAddr.getD zeroConsAddr) with
  | none => simp only [h]; exact ⟨samplesFor_base_active cfg env v, trivial⟩
  | some s_i =>
    simp only [h]
    rw [if_neg (by simp : ¬ (0 : Nat) ≠ 0)]
    refine ⟨?_, rfl⟩
    split_ifs <;>
      first
      | contradiction
      | (simp only [samplesFor_append, samplesFor_base_active, List.nil_append]
         simp [samplesFor])

theorem rankValues_append (xs ys : List Sample) :
    rankValues (xs ++ ys) = rankValues xs ++ rankValues ys := by
  simp [rankValues, samplesFor_append]

theorem runLoop_rankValues (cfg : Config) (env : Env) (si : List SigningInfo)
    (maxV : Nat) (vs : List Validator) : ∀ (i a : Nat),
    rankValues (runLoop cfg env si maxV i a vs) =
      ((List.enumFrom i vs).filter (fun p => resolvesOk env si p.2)).map
        (fun p => ((p.1 + 1 : Nat) : Int)) := by
  induction vs with
  | nil => intro i a; simp [runLoop, rankValues, samplesFor]
  | cons v vs ih =>
    intro i a
    rw [runLoop, rankValues_append, ih]
    simp only [rankValues, processValidator_rank, List.enumFrom]
    cases h : resolvesOk env si v <;> simp [h, List.filter_cons]

theorem runLoop_status (cfg : Config) (env : Env) (si : List SigningInfo)
    (maxV : Nat) (vs : List Validator) : ∀ (i a : Nat),
    samplesFor .status (runLoop cfg env si maxV i a vs) =
      vs.map (fun v =>
        ⟨.status, [("address", v.operatorAddress), ("moniker", v.moniker)], .ofInt v.status⟩) := by
  induction vs with
  | nil => intro i a; simp [runLoop, samplesFor]
  | cons v vs ih =>
    intro i a
    rw [runLoop, samplesFor_append, ih, processValidator_status]
    simp

theorem runLoop_missed (cfg : Config) (env : Env) (si : List SigningInfo)
    (maxV : Nat) (vs : List Validator) : ∀ (i a : Nat),
    samplesFor .missedBlocks (runLoop cfg env si maxV i a vs) =
      vs.filterMap (fun v =>
        match resolveSigningInfo env si (v.consAddr.getD zeroConsAddr),
              v.status == bondedStatus with
        | some s_i, true =>
          some ⟨.missedBlocks, [("address", v.operatorAddress), ("moniker", v.moniker)],
            .ofInt s_i.missedBlocksCounter⟩
        | _, _ => none) := by
  induction vs with
  | nil => intro i a; simp [runLoop, samplesFor]
  | cons v vs ih =>
    intro i a
    rw [runLoop, samplesFor_append, ih, processValidator_missed]
    rw [List.filterMap_cons]
    cases h : resolveSigningInfo env si (v.consAddr.getD zeroConsAddr) with
    | none => simp
    | some s_i => cases hb : v.status == bondedStatus <;> simp

theorem runLoop_active_zero (cfg : Config) (env : Env) (si : List SigningInfo)
    (vs : List Validator) : ∀ (i a : Nat),
    samplesFor .active (runLoop cfg env si 0 i a vs) = [] := by
  induction vs with
  | nil => intro i a; simp [runLoop, samplesFor]
  | cons v vs ih =>
    intro i a
    rw [runLoop, samplesFor_append, (processValidator_active_zero cfg env si i v a).1,
      (processValidator_active_zero cfg env si i v a).2, ih]
    rfl

theorem samplesExceptActive_append (xs ys : List Sample) :
    samplesExceptActive (xs ++ ys) = samplesExceptActive xs ++ samplesExceptActive ys := by
  simp [samplesExceptActive, List.filter_append]

theorem processValidator_nonactive (cfg : Config) (env : Env) (si : List SigningInfo)
    (maxV maxV' i : Nat) (v : Validator) (a a' : Nat) :
    samplesExceptActive (processValidator cfg env si maxV i v a).1 =
      samplesExceptActive (processValidator cfg env si maxV' i v a').1 := by
  unfold processValidator
  cases h : resolveSigningInfo env si (v.consAddr.getD zeroConsAddr) with
  | none => simp only [h]
  | some s_i =>
    simp only [h]
    split_ifs <;>
      simp [samplesExceptActive_append, samplesExceptActive]

theorem runLoop_nonactive (cfg : Config) (env : Env) (si : List SigningInfo)
    (vs : List Validator) : ∀ (maxV maxV' i a a' : Nat),
    samplesExceptActive (runLoop cfg env si maxV i a vs) =
      samplesExceptActive (runLoop cfg env si maxV' i a' vs) := by
  induction vs with
  | nil => intro maxV maxV' i a a'; rfl
  | cons v vs ih =>
    intro maxV maxV' i a a'
    rw [runLoop, runLoop, samplesExceptActive_append, samplesExceptActive_append,
      processValidator_nonactive cfg env si maxV maxV' i v a a',
      ih maxV maxV' (i+1) (processValidator cfg env si maxV i v a).2
        (processValidator cfg env si maxV' i v a').2]

theorem activeOneCount_append (xs ys : List Sample) :
    activeOneCount (xs ++ ys) = activeOneCount xs + activeOneCount ys := by
  simp [activeOneCount, List.filter_append]

theorem activeOneCount_base (cfg : Config) (env : Env) (v : Validator) :
    activeOneCount (baseSamples cfg env v) = 0 := by
  unfold baseSamples activeOneCount; split_ifs <;> rfl

theorem processValidator_active_step (cfg : Config) (env : Env) (si : List SigningInfo)
    (maxV i : Nat) (v : Validator) (a : Nat) :
    activeOneCount (processValidator cfg env si maxV i v a).1 + a =
      (processValidator cfg env si maxV i v a).2 ∧
    ((processValidator cfg env si maxV i v a).2 = a ∨
      ((processValidator cfg env si maxV i v a).2 = a + 1 ∧ a ≠ maxV ∧ v.jailed = false)) := by
  unfold processValidator
  cases h : resolveSigningInfo env si (v.consAddr.getD zeroConsAddr) with
  | none =>
    simp only [h]
    exact ⟨by rw [activeOneCount_base]; omega, Or.inl trivial⟩
  | some s_i =>
    simp only [h]
    split_ifs <;>
      first
      | contradiction
      | (constructor
         · simp only [activeOneCount_append, activeOneCount_base, List.nil_append]
           simp [activeOneCount]
           try omega
         · simp_all)

theorem addrOf_mk (g : Gauge) (x : String) (rest : List (String × String)) (val : GoFloat) :
    addrOf ⟨g, ("address", x) :: rest, val⟩ = x := rfl

theorem runLoop_activeOneCount (cfg : Config) (env : Env) (si : List SigningInfo)
    (maxV : Nat) (vs : List Validator) : ∀ (i a : Nat), a ≤ maxV →
    activeOneCount (runLoop cfg env si maxV i a vs) + a ≤ maxV := by
  induction vs with
  | nil => intro i a ha; simpa [runLoop, activeOneCount] using ha
  | cons v vs ih =>
    intro i a ha
    obtain ⟨hsum, hstep⟩ := processValidator_active_step cfg env si maxV i v a
    rw [runLoop, activeOneCount_append]
    rcases hstep with h2 | ⟨h2, hne, _⟩
    · have := ih (i+1) (processValidator cfg env si maxV i v a).2 (by omega)
      omega
    · have : a + 1 ≤ maxV := by omega
      have := ih (i+1) (processValidator cfg env si maxV i v a).2 (by omega)
      omega

theorem processValidator_active_shape (cfg : Config) (env : Env) (si : List SigningInfo)
    (maxV i : Nat) (v : Validator) (a : Nat) :
    samplesFor .active (processValidator cfg env si maxV i v a).1 = [] ∨
    ∃ val : Int, (val = 0 ∨ val = 1) ∧ (v.jailed = true → val = 0) ∧
      samplesFor .active (processValidator cfg env si maxV i v a).1 =
        [⟨.active, [("address", v.operatorAddress), ("moniker", v.moniker),
          ("pubkey_hash", (v.consAddr.getD zeroConsAddr).hexUpper)], .ofInt val⟩] := by
  unfold processValidator
  cases h : resolveSigningInfo env si (v.consAddr.getD zeroConsAddr) with
  | none => left; simp only [h]; exact samplesFor_base_active cfg env v
  | some s_i =>
    simp only [h]
    by_cases h1 : maxV ≠ 0
    · rw [if_pos h1]
      right
      refine ⟨((if a = maxV then 0 else if v.jailed = true then 0 else 1 : Nat) : Int),
        ?_, ?_, ?_⟩
      · split_ifs <;> simp
      · intro hj; split_ifs <;> simp_all
      · simp only [samplesFor_append, samplesFor_base_active, List.nil_append]
        split_ifs <;> simp [samplesFor]
    · rw [if_neg h1]
      left
      simp only [samplesFor_append, samplesFor_base_active, List.nil_append]
      split_ifs <;> simp [samplesFor]

theorem runLoop_active_samples (cfg : Config) (env : Env) (si : List SigningInfo)
    (maxV : Nat) (vs : List Validator) : ∀ (i a : Nat),
    ∀ s ∈ samplesFor .active (runLoop cfg env si maxV i a vs),
      ∃ v, v ∈ vs ∧ addrOf s = v.operatorAddress ∧
        (s.value = .ofInt 0 ∨ s.value = .ofInt 1) ∧
        (v.jailed = true → s.value = .ofInt 0) := by
  induction vs with
  | nil => intro i a s hs; simp [runLoop, samplesFor] at hs
  | cons v vs ih =>
    intro i a s hs
    rw [runLoop, samplesFor_append] at hs
    rcases List.mem_append.mp hs with hl | hr
    · rcases processValidator_active_shape cfg env si maxV i v a with hsh | ⟨val, hv01, hjail, hsh⟩
      · rw [hsh] at hl; cases hl
      · rw [hsh] at hl
        rcases List.mem_singleton.mp hl with rfl
        refine ⟨v, List.mem_cons_self v vs, addrOf_mk _ _ _ _, ?_, ?_⟩
        · rcases hv01 with h | h <;> simp [h]
        · intro hj; simp [hjail hj]
    · obtain ⟨w, hw, hrest⟩ := ih (i+1) (processValidator cfg env si maxV i v a).2 s hr
      exact ⟨w, List.mem_cons_of_mem v hw, hrest⟩


/-- C10: if the `validator_address` query parameter does not parse as a bech32
validator address, `DelegatorHandler` returns immediately: no gauge is
registered, no upstream query is issued, no sample is set, and the metrics
exposition body is never written. -/
theorem delegator_invalid_address_no_effects (env : DelegatorEnv)
    (h : env.valAddressFromBech32 env.validatorAddressParam = none) :
    delegatorHandler env = ⟨[], [], [], false⟩ := by
  unfold delegatorHandler
  rw [h]

/-- Witness for C10 at a concrete request whose address parameter fails to
parse. -/
theorem delegator_invalid_address_no_effects_witness :
    cexDelegatorEnv.valAddressFromBech32 cexDelegatorEnv.validatorAddressParam = none ∧
    delegatorHandler cexDelegatorEnv = ⟨[], [], [], false⟩ :=
  ⟨rfl, delegator_invalid_address_no_effects cexDelegatorEnv rfl⟩

/-- C6: a missed-blocks sample is emitted for a validator exactly when its
signing-info resolution succeeds (bulk match, or fallback single lookup when
the bulk set omits it — the resolved record supplying the value) and its
status is Bonded; non-Bonded validators get no missed-blocks sample even when
a signing-info match exists. -/
theorem missed_blocks_emission_characterization (cfg : Config) (env : Env) (fuel : Nat) :
    samplesFor .missedBlocks (validatorsHandler cfg env fuel) =
      (validatorsFetch env fuel).filterMap (fun v =>
        match resolveSigningInfo env (signingInfosFetch env) (v.consAddr.getD zeroConsAddr),
              v.status == bondedStatus with
        | some s_i, true =>
          some ⟨.missedBlocks, [("address", v.operatorAddress), ("moniker", v.moniker)],
            .ofInt s_i.missedBlocksCounter⟩
        | _, _ => none) :=
  runLoop_missed cfg env (signingInfosFetch env) (maxValidatorsOf env)
    (validatorsFetch env fuel) 0 0

/-- C5: when `max-validators` is zero — in particular when the staking-params
fetch fails, leaving the `uint32` at its zero value — no active sample is
computed or emitted for any validator, and all other per-validator samples
are exactly what they would be under any `max-validators` value. -/
theorem active_disabled_when_no_max_validators (cfg : Config) (env : Env)
    (fuel m : Nat) (h : env.stakingParams = none ∨ maxValidatorsOf env = 0) :
    maxValidatorsOf env = 0 ∧
    samplesFor .active (validatorsHandler cfg env fuel) = [] ∧
    samplesExceptActive (validatorsHandler cfg env fuel) =
      samplesExceptActive (runLoop cfg env (signingInfosFetch env) m 0 0
        (validatorsFetch env fuel)) := by
  have h0 : maxValidatorsOf env = 0 := by
    rcases h with h | h
    · simp [maxValidatorsOf, h]
    · exact h
  refine ⟨h0, ?_, ?_⟩
  · unfold validatorsHandler
    rw [h0]
    exact runLoop_active_zero cfg env (signingInfosFetch env) (validatorsFetch env fuel) 0 0
  · unfold validatorsHandler
    exact runLoop_nonactive cfg env (signingInfosFetch env) (validatorsFetch env fuel)
      (maxValidatorsOf env) m 0 0 0

/-- Witness for C5 at a concrete environment whose staking-params fetch
fails. -/
theorem active_disabled_when_no_max_validators_witness :
    okEnv.stakingParams = none ∧
    (maxValidatorsOf okEnv = 0 ∧
     samplesFor .active (validatorsHandler ⟨"uatom"⟩ okEnv 2) = [] ∧
     samplesExceptActive (validatorsHandler ⟨"uatom"⟩ okEnv 2) =
       samplesExceptActive (runLoop ⟨"uatom"⟩ okEnv (signingInfosFetch okEnv) 5 0 0
         (validatorsFetch okEnv 2))) :=
  ⟨rfl, active_disabled_when_no_max_validators ⟨"uatom"⟩ okEnv 2 5 (Or.inl rfl)⟩

/-- C3 counterexample: with two collected validators where the second one's
signing-info fallback lookup fails, only one rank sample is emitted — the
emitted ranks are `[1]`, not the permutation `1..2`; the skipped validator
`"b"` gets no rank sample at all (though its record was otherwise processed,
e.g. its status sample exists). -/
theorem rank_gap_on_fallback_failure_cex :
    (validatorsFetch cexC3Env 2).map Validator.operatorAddress = ["a", "b"] ∧
    rankValues (validatorsHandler ⟨"uatom"⟩ cexC3Env 2) = [1] ∧
    (samplesFor .rank (validatorsHandler ⟨"uatom"⟩ cexC3Env 2)).map addrOf = ["a"] ∧
    (samplesFor .status (validatorsHandler ⟨"uatom"⟩ cexC3Env 2)).map addrOf = ["a", "b"] :=
  ⟨rfl, rfl, rfl, rfl⟩

/-- C3 amended: the emitted ranks are `index + 1` exactly for the validators
whose signing-info resolution succeeds; validators whose fallback lookup
fails are skipped by the `continue` (no rank, missed-blocks or active
sample), while their earlier gauges (e.g. status) are still emitted for every
validator and the request still succeeds. -/
theorem rank_emission_characterization (cfg : Config) (env : Env) (fuel : Nat) :
    rankValues (validatorsHandler cfg env fuel) =
      ((List.enumFrom 0 (validatorsFetch env fuel)).filter
        (fun p => resolvesOk env (signingInfosFetch env) p.2)).map
        (fun p => ((p.1 + 1 : Nat) : Int)) ∧
    samplesFor .status (validatorsHandler cfg env fuel) =
      (validatorsFetch env fuel).map (fun v =>
        ⟨.status, [("address", v.operatorAddress), ("moniker", v.moniker)],
          .ofInt v.status⟩) :=
  ⟨runLoop_rankValues cfg env (signingInfosFetch env) (maxValidatorsOf env)
      (validatorsFetch env fuel) 0 0,
   runLoop_status cfg env (signingInfosFetch env) (maxValidatorsOf env)
      (validatorsFetch env fuel) 0 0⟩

/-- C4 counterexample: with `max-validators = 1`, a jailed validator whose
signing-info fallback fails is skipped entirely: it is not emitted with
`active == false` — it gets no active sample at all. -/
theorem jailed_skipped_no_active_sample_cex :
    (validatorsFetch cexC4Env 2).map (fun v => (v.operatorAddress, v.jailed)) =
      [("a", false), ("b", true)] ∧
    maxValidatorsOf cexC4Env = 1 ∧
    (samplesFor .active (validatorsHandler ⟨"uatom"⟩ cexC4Env 2)).map addrOf = ["a"] :=
  ⟨rfl, rfl, rfl⟩

/-- C4 amended: at most `max-validators` samples assert active-set membership
(`active == 1`), counted in sort order, and every active sample belongs to a
collected validator, carries value `0` or `1`, and is `0` whenever that
validator is jailed (jailed validators never increment the counter); but a
validator skipped by a failed signing-info resolution emits no active sample
at all. -/
theorem active_set_invariants (cfg : Config) (env : Env) (fuel : Nat) :
    activeOneCount (validatorsHandler cfg env fuel) ≤ maxValidatorsOf env ∧
    ∀ s ∈ samplesFor .active (validatorsHandler cfg env fuel),
      ∃ v, v ∈ validatorsFetch env fuel ∧ addrOf s = v.operatorAddress ∧
        (s.value = .ofInt 0 ∨ s.value = .ofInt 1) ∧
        (v.jailed = true → s.value = .ofInt 0) := by
  constructor
  · have := runLoop_activeOneCount cfg env (signingInfosFetch env) (maxValidatorsOf env)
      (validatorsFetch env fuel) 0 0 (Nat.zero_le _)
    unfold validatorsHandler
    omega
  · exact runLoop_active_samples cfg env (signingInfosFetch env) (maxValidatorsOf env)
      (validatorsFetch env fuel) 0 0

/-- C7 counterexample: the upstream signing-info set spans two pages, yet the
handler's single bounded query collects only page 0 — unlike the paginated
collection loop used for validators, which would gather both pages. -/
theorem signing_infos_single_page_cex :
    signingInfosFetch cexC7Env = [⟨"s1", 1⟩] ∧
    (paginatedCollect cexC7Env.signingInfoPages 3 0 []).1 = [⟨"s1", 1⟩, ⟨"s2", 2⟩] ∧
    signingInfosFetch cexC7Env ≠ (paginatedCollect cexC7Env.signingInfoPages 3 0 []).1 :=
  ⟨rfl, rfl, by decide⟩

theorem runLoop_pages_irrelevant (cfg : Config) (env : Env)
    (f : Nat → Option (List SigningInfo)) (si : List SigningInfo) (maxV : Nat)
    (vs : List Validator) : ∀ (i a : Nat),
    runLoop cfg { env with signingInfoPages := f } si maxV i a vs =
      runLoop cfg env si maxV i a vs := by
  induction vs with
  | nil => intro i a; rfl
  | cons v vs ih =>
    intro i a
    rw [runLoop, runLoop]
    have hp : processValidator cfg { env with signingInfoPages := f } si maxV i v a =
        processValidator cfg env si maxV i v a := rfl
    rw [hp, ih]

/-- C7 amended: the bulk signing-info retrieval is one bounded query at
offset 0 (page limit `config.Limit`), not a pagination loop: the handler's
entire output is unchanged by arbitrary modifications of the signing-info
pages beyond page 0. -/
theorem signing_infos_first_page_only (cfg : Config) (env : Env) (fuel : Nat)
    (f : Nat → Option (List SigningInfo)) (h : f 0 = env.signingInfoPages 0) :
    validatorsHandler cfg { env with signingInfoPages := f } fuel =
      validatorsHandler cfg env fuel := by
  unfold validatorsHandler
  have hs : signingInfosFetch { env with signingInfoPages := f } = signingInfosFetch env := by
    unfold signingInfosFetch
    rw [show ({ env with signingInfoPages := f } : Env).signingInfoPages 0 =
      env.signingInfoPages 0 from h]
  rw [hs]
  exact runLoop_pages_irrelevant cfg env f (signingInfosFetch env) (maxValidatorsOf env)
    (validatorsFetch env fuel) 0 0

/-- Witness for the amended C7 at a concrete environment: blanking out every
signing-info page except page 0 leaves the handler output unchanged. -/
theorem signing_infos_first_page_only_witness :
    (fun o => if o = 0 then cexC7Env.signingInfoPages 0 else none) 0 =
      cexC7Env.signingInfoPages 0 ∧
    validatorsHandler ⟨"uatom"⟩
      { cexC7Env with
        signingInfoPages := fun o => if o = 0 then cexC7Env.signingInfoPages 0 else none } 2 =
      validatorsHandler ⟨"uatom"⟩ cexC7Env 2 :=
  ⟨rfl, signing_infos_first_page_only ⟨"uatom"⟩ cexC7Env 2 _ rfl⟩

/-- C8 counterexample: page 0 delivers a non-bonded validator ahead of a
bonded one and the next page fetch fails; the error path returns before the
`sort.Slice` call, so the partial list is processed as accumulated — the
bonded validator ranks after the non-bonded one, violating the ordering
contract (the comparator says the bonded one must precede). -/
theorem partial_fetch_not_sorted_cex :
    (paginatedCollect cexC8Env.validatorsPage 3 0 []).2 = true ∧
    (validatorsFetch cexC8Env 3).map (fun v => (v.operatorAddress, v.isBonded)) =
      [("u", false), ("w", true)] ∧
    validatorLess (validatorsFetch cexC8Env 3)[1]! (validatorsFetch cexC8Env 3)[0]! = true ∧
    rankValues (validatorsHandler ⟨"uatom"⟩ cexC8Env 3) = [1, 2] ∧
    (samplesFor .rank (validatorsHandler ⟨"uatom"⟩ cexC8Env 3)).map addrOf = ["u", "w"] :=
  ⟨rfl, rfl, rfl, rfl, rfl⟩

/-- C8 amended: when a validator page fetch fails partway through pagination,
collection stops with the items accumulated thus far and the caller proceeds
with them as a valid degraded result — but the error return skips the
`sort.Slice` call, so the per-validator derivation runs over the partial
list in upstream fetch order, not sorted. -/
theorem partial_fetch_proceeds_without_sort (cfg : Config) (env : Env) (fuel : Nat)
    (h : (paginatedCollect env.validatorsPage fuel 0 []).2 = true) :
    validatorsFetch env fuel = (paginatedCollect env.validatorsPage fuel 0 []).1 ∧
    validatorsHandler cfg env fuel =
      runLoop cfg env (signingInfosFetch env) (maxValidatorsOf env) 0 0
        (paginatedCollect env.validatorsPage fuel 0 []).1 := by
  have h1 : validatorsFetch env fuel = (paginatedCollect env.validatorsPage fuel 0 []).1 := by
    unfold validatorsFetch
    simp only [h, if_pos]
  exact ⟨h1, by unfold validatorsHandler; rw [h1]⟩

/-- Witness for the amended C8 at the concrete failing-pagination
environment. -/
theorem partial_fetch_proceeds_without_sort_witness :
    (paginatedCollect cexC8Env.validatorsPage 3 0 []).2 = true ∧
    (validatorsFetch cexC8Env 3 = (paginatedCollect cexC8Env.validatorsPage 3 0 []).1 ∧
     validatorsHandler ⟨"uatom"⟩ cexC8Env 3 =
       runLoop ⟨"uatom"⟩ cexC8Env (signingInfosFetch cexC8Env) (maxValidatorsOf cexC8Env) 0 0
         (paginatedCollect cexC8Env.validatorsPage 3 0 []).1) :=
  ⟨rfl, partial_fetch_proceeds_without_sort ⟨"uatom"⟩ cexC8Env 3 rfl⟩

/-- C9 counterexample: for a validator whose consensus-address derivation
fails, the code does not merely skip the signing-info join — it proceeds with
the zero-value address, and when the fallback lookup for `""` fails, the
`continue` also skips the rank (and active) emission, so the rank is *not*
still emitted as the claim states (the earlier fields, e.g. status, are). -/
theorem consaddr_failure_skips_rank_cex :
    (validatorsFetch cexC9Env 2).map Validator.consAddr = [none] ∧
    samplesFor .rank (validatorsHandler ⟨"uatom"⟩ cexC9Env 2) = [] ∧
    (samplesFor .status (validatorsHandler ⟨"uatom"⟩ cexC9Env 2)).map addrOf = ["d"] :=
  ⟨rfl, rfl, rfl⟩

/-- C9 amended: on consensus-address derivation failure the handler logs and
continues with the zero-value address: commission/status/jailed/amount gauges
are still emitted; the signing-info join is attempted with the empty address
string — if it finds nothing and the fallback for `""` fails, the
missed-blocks, rank and active emissions are all skipped; if it resolves,
the rank is emitted and the active sample (when present) carries an empty
`pubkey_hash` label. -/
theorem consaddr_failure_join_with_zero_address (cfg : Config) (env : Env)
    (si : List SigningInfo) (maxV i : Nat) (v : Validator) (a : Nat)
    (h : v.consAddr = none) :
    (resolveSigningInfo env si zeroConsAddr = none →
      (processValidator cfg env si maxV i v a).1 = baseSamples cfg env v) ∧
    (∀ s_i, resolveSigningInfo env si zeroConsAddr = some s_i →
      rankValues (processValidator cfg env si maxV i v a).1 = [((i + 1 : Nat) : Int)] ∧
      ∀ s ∈ samplesFor .active (processValidator cfg env si maxV i v a).1,
        pubkeyHashOf s = "") := by
  constructor
  · intro hr
    unfold processValidator
    rw [h]
    simp only [Option.getD_none]
    rw [hr]
  · intro s_i hr
    constructor
    · have := processValidator_rank cfg env si maxV i v a
      rw [show resolvesOk env si v = true by
        unfold resolvesOk; rw [h]; simp only [Option.getD_none]; rw [hr]; rfl] at this
      simp [rankValues, this]
    · intro s hs
      rcases processValidator_active_shape cfg env si maxV i v a with hsh | ⟨val, _, _, hsh⟩
      · rw [hsh] at hs; cases hs
      · rw [hsh] at hs
        rcases List.mem_singleton.mp hs with rfl
        rw [h]
        rfl

/-- Witness for the amended C9: a concrete validator with failed
consensus-address derivation, in an environment where the empty-address
fallback fails. -/
theorem consaddr_failure_join_with_zero_address_witness :
    (mkVal "d" 3 1000 false none).consAddr = none ∧
    ((resolveSigningInfo cexC9Env [⟨"cx", 5⟩] zeroConsAddr = none →
       (processValidator ⟨"uatom"⟩ cexC9Env [⟨"cx", 5⟩] 10 0 (mkVal "d" 3 1000 false none) 0).1 =
         baseSamples ⟨"uatom"⟩ cexC9Env (mkVal "d" 3 1000 false none)) ∧
     (∀ s_i, resolveSigningInfo cexC9Env [⟨"cx", 5⟩] zeroConsAddr = some s_i →
       rankValues (processValidator ⟨"uatom"⟩ cexC9Env [⟨"cx", 5⟩] 10 0
           (mkVal "d" 3 1000 false none) 0).1 = [((0 + 1 : Nat) : Int)] ∧
       ∀ s ∈ samplesFor .active (processValidator ⟨"uatom"⟩ cexC9Env [⟨"cx", 5⟩] 10 0
           (mkVal "d" 3 1000 false none) 0).1,
         pubkeyHashOf s = "")) :=
  ⟨rfl, consaddr_failure_join_with_zero_address ⟨"uatom"⟩ cexC9Env [⟨"cx", 5⟩] 10 0
    (mkVal "d" 3 1000 false none) 0 rfl⟩

/-- C2 counterexample: thirteen collected validators, all bonded, where
validators `"v2"` and `"v6"` have equal bonded-state and equal delegator
shares and appear upstream with `v2` before `v6`; the embedded `sort.Slice`
(pdqsort — the input exceeds the 12-element insertion-sort fast path) emits
`v6` before `v2`, and also moves `v0` behind `v7`–`v11`: equal-share ties do
not preserve upstream order, so the sort is not stable. -/
theorem sort_unstable_cex :
    cexC2List.map Validator.operatorAddress =
      ["v0", "v1", "v2", "v3", "v4", "v5", "v6", "v7", "v8", "v9", "v10", "v11", "v12"] ∧
    cexC2List[2]!.isBonded = cexC2List[6]!.isBonded ∧
    cexC2List[2]!.delegatorShares = cexC2List[6]!.delegatorShares ∧
    (sortValidators cexC2List).map Validator.operatorAddress =
      ["v12", "v6", "v2", "v3", "v4", "v5", "v0", "v7", "v8", "v9", "v10", "v11", "v1"] ∧
    (sortValidators cexC2List)[1]!.operatorAddress = "v6" ∧
    (sortValidators cexC2List)[2]!.operatorAddress = "v2" :=
  ⟨rfl, rfl, rfl, rfl, rfl, rfl⟩

/-! ### Base lemmas about `lswap` and `RangeOp` -/

theorem list_eq_take_cons_drop {β : Type} (l : List β) (i : Nat) (h : i < l.length) :
    l = l.take i ++ l[i] :: l.drop (i+1) := by
  conv_lhs => rw [← List.take_append_drop i l]
  rw [← List.cons_getElem_drop_succ]

theorem count_set {β : Type} [DecidableEq β] (l : List β) (i : Nat) (v : β)
    (h : i < l.length) (x : β) :
    List.count x (l.set i v) + List.count x [l[i]] = List.count x l + List.count x [v] := by
  conv_rhs => rw [list_eq_take_cons_drop l i h]
  rw [List.set_eq_take_cons_drop _ h]
  simp only [List.count_append, List.count_cons, List.count_singleton, List.count_nil]
  by_cases h1 : v = x <;> by_cases h2 : l[i] = x <;> simp [h1, h2] <;> omega

section SwapLemmas

variable {α : Type} [Inhabited α]

theorem lswap_length (l : List α) (i j : Nat) : (lswap l i j).length = l.length := by
  simp [lswap]

theorem getBang_eq_getElem (l : List α) (i : Nat) (h : i < l.length) : l[i]! = l[i] :=
  getElem!_pos l i h

theorem set_getBang_self (l : List α) (i : Nat) (h : i < l.length) : l.set i l[i]! = l := by
  rw [getBang_eq_getElem l i h, List.set_eq_take_cons_drop _ h, ← list_eq_take_cons_drop l i h]

theorem lswap_self (l : List α) (i : Nat) : lswap l i i = l := by
  by_cases h : i < l.length
  · rw [lswap, List.set_set, set_getBang_self l i h]
  · rw [lswap, getElem!_neg l i (by simpa using h)]
    rw [List.set_eq_of_length_le (by simp; omega), List.set_eq_of_length_le (by omega)]

theorem getBang_lswap_fst (l : List α) (i j : Nat) (hi : i < l.length) (hj : j < l.length) :
    (lswap l i j)[i]! = l[j]! := by
  by_cases hij : i = j
  · subst hij; rw [lswap_self]
  · rw [lswap, getBang_eq_getElem _ i (by simpa using hi),
      List.getElem_set_ne (by omega), List.getElem_set_self (by simpa using hi),
      getBang_eq_getElem _ j hj]

theorem getBang_lswap_snd (l : List α) (i j : Nat) (hi : i < l.length) (hj : j < l.length) :
    (lswap l i j)[j]! = l[i]! := by
  rw [lswap, getBang_eq_getElem _ j (by simpa using hj),
    List.getElem_set_self (by simpa using hj), getBang_eq_getElem _ i hi]

theorem getBang_lswap_other (l : List α) (i j k : Nat) (hki : k ≠ i) (hkj : k ≠ j) :
    (lswap l i j)[k]! = l[k]! := by
  by_cases hk : k < l.length
  · rw [lswap, getBang_eq_getElem _ k (by simp [lswap] at *; omega),
      List.getElem_set_ne (by omega), List.getElem_set_ne (by omega),
      getBang_eq_getElem _ k hk]
  · rw [getElem!_neg _ k (by rw [lswap_length]; simpa using hk),
      getElem!_neg _ k (by simpa using hk)]

theorem lswap_perm (l : List α) (i j : Nat) (hi : i < l.length) (hj : j < l.length) :
    (lswap l i j).Perm l := by
  classical
  by_cases hij : i = j
  · subst hij; rw [lswap_self]
  · rw [List.perm_iff_count]
    intro x
    have hj' : j < (l.set i l[j]!).length := by simpa using hj
    have e1 := count_set (l.set i l[j]!) j (l[i]!) hj' x
    have e2 := count_set l i (l[j]!) hi x
    have e3 : (l.set i l[j]!)[j] = l[j] := List.getElem_set_ne (by omega) _
    rw [e3] at e1
    rw [lswap]
    simp only [getBang_eq_getElem l i hi, getBang_eq_getElem l j hj] at e1 e2 ⊢
    omega

end SwapLemmas

section RangeOpLemmas

variable {α : Type} [Inhabited α]

theorem RangeOp.refl (l : List α) (a b : Nat) : RangeOp l l a b :=
  ⟨rfl, fun _ _ => rfl, List.Perm.refl l⟩

theorem RangeOp.trans {l m r : List α} {a b : Nat}
    (h1 : RangeOp l m a b) (h2 : RangeOp m r a b) : RangeOp l r a b :=
  ⟨h2.1.trans h1.1, fun k hk => (h2.2.1 k hk).trans (h1.2.1 k hk), h2.2.2.trans h1.2.2⟩

theorem RangeOp.mono {l r : List α} {a b a' b' : Nat}
    (h : RangeOp l r a' b') (ha : a ≤ a') (hb : b' ≤ b) : RangeOp l r a b :=
  ⟨h.1, fun k hk => h.2.1 k (by omega), h.2.2⟩

theorem lswap_rangeOp (l : List α) (i j a b : Nat)
    (hai : a ≤ i) (hib : i < b) (haj : a ≤ j) (hjb : j < b) (hb : b ≤ l.length) :
    RangeOp l (lswap l i j) a b := by
  refine ⟨lswap_length l i j, fun k hk => ?_, lswap_perm l i j (by omega) (by omega)⟩
  exact getBang_lswap_other l i j k (by omega) (by omega)

theorem RangeOp.getBang_outside {l r : List α} {a b : Nat} (h : RangeOp l r a b)
    (k : Nat) (hk : k < a ∨ b ≤ k) : r[k]! = l[k]! := h.2.1 k hk

/-- The elements of the range `[a, b)` of `r` are (as a multiset) those of the
range of `l`; in particular each one occurs somewhere in `l`'s range. -/
theorem RangeOp.exists_src {l r : List α} {a b : Nat} (h : RangeOp l r a b)
    (hb : b ≤ l.length) (hab : a ≤ b) (k : Nat) (hk1 : a ≤ k) (hk2 : k < b) :
    ∃ k', a ≤ k' ∧ k' < b ∧ r[k]! = l[k']! := by
  obtain ⟨hlen, hout, hperm⟩ := h
  -- prefixes and suffixes coincide, so the middle slices are permutations
  have htake : r.take a = l.take a := by
    apply List.ext_getElem
    · simp; omega
    · intro n h1 h2
      rw [List.getElem_take, List.getElem_take]
      have h3 : n < a := by simp at h1; omega
      have := hout n (Or.inl h3)
      rwa [getBang_eq_getElem r n (by omega), getBang_eq_getElem l n (by omega)] at this
  have hdropb : r.drop b = l.drop b := by
    apply List.ext_getElem
    · simp; omega
    · intro n h1 h2
      simp only [List.length_drop] at h1 h2
      rw [List.getElem_drop, List.getElem_drop]
      have := hout (b + n) (Or.inr (by omega))
      rwa [getBang_eq_getElem r (b+n) (by omega), getBang_eq_getElem l (b+n) (by omega)] at this
  have hdecl : l = l.take a ++ ((l.drop a).take (b - a) ++ l.drop b) := by
    rw [show l.drop b = (l.drop a).drop (b - a) by rw [List.drop_drop]; congr 1; omega,
      List.take_append_drop, List.take_append_drop]
  have hdecr : r = r.take a ++ ((r.drop a).take (b - a) ++ r.drop b) := by
    rw [show r.drop b = (r.drop a).drop (b - a) by rw [List.drop_drop]; congr 1; omega,
      List.take_append_drop, List.take_append_drop]
  have hslice : ((r.drop a).take (b - a)).Perm ((l.drop a).take (b - a)) := by
    have hp : (r.take a ++ ((r.drop a).take (b - a) ++ r.drop b)).Perm
        (l.take a ++ ((l.drop a).take (b - a) ++ l.drop b)) := by
      rw [← hdecl, ← hdecr]; exact hperm
    rw [htake, hdropb] at hp
    have hp2 := (List.perm_append_left_iff _).mp hp
    exact (List.perm_append_right_iff _).mp hp2
  -- transport membership across the slice permutation
  have hmem : r[k] ∈ (r.drop a).take (b - a) := by
    rw [List.mem_iff_getElem]
    refine ⟨k - a, by simp; omega, ?_⟩
    rw [List.getElem_take, List.getElem_drop]
    congr 1
    omega
  rw [getBang_eq_getElem r k (by omega)]
  have hmem2 : r[k] ∈ (l.drop a).take (b - a) := hslice.mem_iff.mp hmem
  rw [List.mem_iff_getElem] at hmem2
  obtain ⟨n, hn, hval⟩ := hmem2
  have hn' : n < b - a := by simp at hn; omega
  refine ⟨a + n, by omega, by omega, ?_⟩
  rw [getBang_eq_getElem l (a + n) (by omega), ← hval, List.getElem_take, List.getElem_drop]

end RangeOpLemmas

section InsertionSortProofs

variable {α : Type} [Inhabited α] {less : α → α → Bool}

theorem adjSorted_to_sorted
    (hntrans : ∀ a b c, less b a = false → less c b = false → less c a = false)
    (l : List α) (a b : Nat) (h : AdjSortedRg less l a b) : SortedRg less l a b := by
  intro i j hai hij hjb
  induction j with
  | zero => omega
  | succ j ih =>
    by_cases hji : i = j
    · subst hji
      simpa using h (i+1) (by omega) (by omega)
    · have h1 : less l[j]! l[i]! = false := ih (by omega) (by omega)
      have h2 : less l[j+1]! l[j]! = false := by simpa using h (j+1) (by omega) (by omega)
      exact hntrans l[i]! l[j]! l[j+1]! h1 h2

theorem insSortInner_spec
    (hasymm : ∀ a b, less a b = true → less b a = false)
    (a i b : Nat) (hib : i < b) :
    ∀ (j : Nat) (l : List α), b ≤ l.length → a ≤ j → j ≤ i →
    (∀ k, a < k → k < j → less l[k]! l[k-1]! = false) →
    (∀ k, j < k → k ≤ i → less l[k]! l[k-1]! = false) →
    (j + 1 ≤ i → a < j → less l[j+1]! l[j-1]! = false) →
    RangeOp l (insSortInner less a j l) a (i+1) ∧
    (∀ k, a < k → k ≤ i →
      less (insSortInner less a j l)[k]! (insSortInner less a j l)[k-1]! = false)
  | 0, l => by
    intro hb ha0 h0i hpre hsuf _
    rw [insSortInner]
    exact ⟨RangeOp.refl l a (i+1), fun k hk1 hk2 => hsuf k (by omega) hk2⟩
  | j+1, l => by
    intro hb haj hji hpre hsuf hbridge
    rw [insSortInner]
    by_cases hcond : a ≤ j ∧ less l[j+1]! l[j]! = true
    · rw [if_pos hcond]
      have hj1 : j + 1 < l.length := by omega
      have hj0 : j < l.length := by omega
      have e1 : (lswap l (j+1) j)[j+1]! = l[j]! := getBang_lswap_fst l (j+1) j hj1 hj0
      have e2 : (lswap l (j+1) j)[j]! = l[j+1]! := getBang_lswap_snd l (j+1) j hj1 hj0
      have eo : ∀ k, k ≠ j+1 → k ≠ j → (lswap l (j+1) j)[k]! = l[k]! := fun k h1 h2 =>
        getBang_lswap_other l (j+1) j k h1 h2
      have hmain := insSortInner_spec hasymm a i b hib j (lswap l (j+1) j)
        (by rw [lswap_length]; exact hb) hcond.1 (by omega)
        (fun k hk1 hk2 => by
          rw [eo k (by omega) (by omega), eo (k-1) (by omega) (by omega)]
          exact hpre k hk1 (by omega))
        (fun k hk1 hk2 => by
          by_cases hk : k = j+1
          · subst hk
            rw [e1, show j+1-1 = j from rfl, e2]
            exact hasymm _ _ hcond.2
          · by_cases hk' : k = j+2
            · subst hk'
              rw [eo (j+2) (by omega) (by omega), show j+2-1 = j+1 from rfl, e1]
              exact hbridge (by omega) (by omega)
            · rw [eo k (by omega) (by omega), eo (k-1) (by omega) (by omega)]
              exact hsuf k (by omega) hk2)
        (fun hj1i haj' => by
          rw [e1, eo (j-1) (by omega) (by omega)]
          exact hpre j haj' (by omega))
      refine ⟨RangeOp.trans ?_ hmain.1, hmain.2⟩
      exact lswap_rangeOp l (j+1) j a (i+1) (by omega) (by omega) (by omega) (by omega)
        (by omega)
    · rw [if_neg hcond]
      refine ⟨RangeOp.refl l a (i+1), fun k hk1 hk2 => ?_⟩
      by_cases hk : k < j+1
      · exact hpre k hk1 hk
      · by_cases hk' : k = j+1
        · subst hk'
          rcases Decidable.em (a ≤ j) with haj' | haj'
          · cases hcase : less l[j+1]! l[j]! with
            | false => simpa using hcase
            | true => exact absurd ⟨haj', hcase⟩ hcond
          · omega
        · exact hsuf k (by omega) hk2

theorem insSortOuter_spec
    (hasymm : ∀ a b, less a b = true → less b a = false)
    (a b : Nat) :
    ∀ (fuel i : Nat) (l : List α), b ≤ l.length → a + 1 ≤ i → b ≤ fuel + i →
    (∀ k, a < k → k < i → less l[k]! l[k-1]! = false) →
    RangeOp l (insSortOuter less a b fuel i l) a b ∧
    AdjSortedRg less (insSortOuter less a b fuel i l) a b
  | 0, i, l => by
    intro hb hai hfuel hsort
    rw [insSortOuter]
    exact ⟨RangeOp.refl l a b, fun k hk1 hk2 => hsort k hk1 (by omega)⟩
  | fuel+1, i, l => by
    intro hb hai hfuel hsort
    rw [insSortOuter]
    by_cases hib : i < b
    · rw [if_pos hib]
      have hinner := insSortInner_spec hasymm a i b hib i l hb (by omega) le_rfl
        (fun k hk1 hk2 => hsort k hk1 hk2)
        (fun k hk1 hk2 => by omega)
        (fun h1 h2 => by omega)
      have houter := insSortOuter_spec hasymm a b fuel (i+1) (insSortInner less a i l)
        (by rw [hinner.1.1]; exact hb) (by omega) (by omega)
        (fun k hk1 hk2 => hinner.2 k hk1 (by omega))
      refine ⟨RangeOp.trans (hinner.1.mono le_rfl (by omega)) houter.1, houter.2⟩
    · rw [if_neg hib]
      exact ⟨RangeOp.refl l a b, fun k hk1 hk2 => hsort k hk1 (by omega)⟩

theorem insertionSort_spec
    (hasymm : ∀ a b, less a b = true → less b a = false)
    (a b : Nat) (l : List α) (hb : b ≤ l.length) :
    RangeOp l (insertionSort less a b l) a b ∧
    AdjSortedRg less (insertionSort less a b l) a b := by
  rw [insertionSort]
  exact insSortOuter_spec hasymm a b (b - a) (a+1) l hb le_rfl (by omega)
    (fun k hk1 hk2 => by omega)

end InsertionSortProofs

section FrameLemmas

variable {α : Type} [Inhabited α] (less : α → α → Bool)

theorem revRangeLoop_rangeOp :
    ∀ (fuel i j : Nat) (l : List α), j < l.length →
    RangeOp l (revRangeLoop fuel i j l) i (j+1)
  | 0, i, j, l => fun _ => by rw [revRangeLoop]; exact RangeOp.refl l i (j+1)
  | fuel+1, i, j, l => fun hj => by
    rw [revRangeLoop]
    by_cases hij : i < j
    · rw [if_pos hij]
      have h1 := lswap_rangeOp l i j i (j+1) le_rfl (by omega) (by omega) (by omega) (by omega)
      have h2 := revRangeLoop_rangeOp fuel (i+1) (j-1) (lswap l i j)
        (by rw [lswap_length]; omega)
      exact RangeOp.trans h1 (h2.mono (by omega) (by omega))
    · rw [if_neg hij]
      exact RangeOp.refl l i (j+1)

theorem reverseRange_rangeOp (a b : Nat) (l : List α) (hb : b ≤ l.length) :
    RangeOp l (reverseRange a b l) a b := by
  rw [reverseRange]
  rcases Nat.eq_zero_or_pos b with hb0 | hb0
  · subst hb0
    rw [revRangeLoop]
    exact RangeOp.refl l a 0
  · have h := revRangeLoop_rangeOp b a (b-1) l (by omega)
    exact h.mono le_rfl (by omega)

theorem bitsLenGo_zero (fuel : Nat) : bitsLenGo fuel 0 = 0 := by
  cases fuel <;> rfl

theorem bitsLenGo_bound : ∀ (fuel n : Nat), n ≤ fuel → 1 ≤ n →
    n < 2 ^ (bitsLenGo fuel n) ∧ 2 ^ (bitsLenGo fuel n) ≤ 2 * n
  | 0, n => by omega
  | fuel+1, n => fun hn h1 => by
    rw [bitsLenGo, if_neg (by omega)]
    rcases Nat.lt_or_ge n 2 with h2 | h2
    · have hn1 : n = 1 := by omega
      subst hn1
      rw [show (1:Nat)/2 = 0 from rfl, bitsLenGo_zero]
      omega
    · have hrec := bitsLenGo_bound fuel (n / 2) (by omega) (by omega)
      rw [pow_succ]
      omega

theorem bitsLen_bound (n : Nat) (h : 1 ≤ n) :
    n < 2 ^ (bitsLen n) ∧ 2 ^ (bitsLen n) ≤ 2 * n :=
  bitsLenGo_bound n n le_rfl h

theorem breakPatternsLoop_rangeOp (a length modulus : Nat)
    (hlen : 8 ≤ length) (hmod : modulus ≤ 2 * length) (hmodpos : 1 ≤ modulus) :
    ∀ (fuel idx rnd : Nat) (l : List α), a ≤ idx → a + length ≤ l.length →
    RangeOp l (breakPatternsLoop a length modulus fuel idx rnd l) a (a + length)
  | 0, idx, rnd, l => fun _ _ => by
    rw [breakPatternsLoop]; exact RangeOp.refl l a (a + length)
  | fuel+1, idx, rnd, l => fun hidx hb => by
    rw [breakPatternsLoop]
    by_cases hguard : idx ≤ a + length / 4 * 2 + 1
    · rw [if_pos hguard]
      have hm : xorshiftNext rnd % modulus < modulus := Nat.mod_lt _ (by omega)
      have hother : (if xorshiftNext rnd % modulus ≥ length
          then xorshiftNext rnd % modulus - length
          else xorshiftNext rnd % modulus) < length := by
        split_ifs with hcase <;> omega
      have hidxlt : idx < a + length := by
        have : length / 4 * 2 + 1 < length := by omega
        omega
      refine RangeOp.trans
        (lswap_rangeOp l idx
          (a + (if xorshiftNext rnd % modulus ≥ length
            then xorshiftNext rnd % modulus - length
            else xorshiftNext rnd % modulus))
          a (a + length) hidx hidxlt (by omega) (by omega) hb)
        (breakPatternsLoop_rangeOp a length modulus hlen hmod hmodpos fuel (idx+1)
          (xorshiftNext rnd) _ (by omega) (by rw [lswap_length]; exact hb))
    · rw [if_neg hguard]
      exact RangeOp.refl l a (a + length)

theorem breakPatterns_rangeOp (a b : Nat) (l : List α) (hb : b ≤ l.length) :
    RangeOp l (breakPatterns a b l) a b := by
  rw [breakPatterns]
  by_cases hlen : b - a ≥ 8
  · rw [if_pos hlen]
    have hmod := bitsLen_bound (b - a) (by omega)
    have hpow : (0:Nat) < 2 ^ bitsLen (b - a) := Nat.pos_pow_of_pos _ (by omega)
    have h := breakPatternsLoop_rangeOp a (b - a) (nextPowerOfTwo (b - a))
      hlen (by rw [nextPowerOfTwo, Nat.shiftLeft_eq, one_mul]; exact hmod.2)
      (by rw [nextPowerOfTwo, Nat.shiftLeft_eq, one_mul]; omega)
      4 (a + (b - a) / 4 * 2 - 1) (b - a) l (by omega) (by omega)
    exact h.mono le_rfl (by omega)
  · rw [if_neg hlen]
    exact RangeOp.refl l a b

theorem order2_mem (l : List α) (a b s : Nat) :
    ((order2 less l a b s).1 = a ∨ (order2 less l a b s).1 = b) ∧
    ((order2 less l a b s).2.1 = a ∨ (order2 less l a b s).2.1 = b) := by
  rw [order2]
  split_ifs <;> simp

theorem median_mem (l : List α) (a b c s : Nat) :
    (median less l a b c s).1 = a ∨ (median less l a b c s).1 = b ∨
    (median less l a b c s).1 = c := by
  have m1 := order2_mem less l a b s
  have m2 := order2_mem less l (order2 less l a b s).2.1 c (order2 less l a b s).2.2
  have m3 := order2_mem less l (order2 less l a b s).1
    (order2 less l (order2 less l a b s).2.1 c (order2 less l a b s).2.2).1
    (order2 less l (order2 less l a b s).2.1 c (order2 less l a b s).2.2).2.2
  rw [median]
  omega

theorem medianAdjacent_mem (l : List α) (x s : Nat) :
    (medianAdjacent less l x s).1 = x - 1 ∨ (medianAdjacent less l x s).1 = x ∨
    (medianAdjacent less l x s).1 = x + 1 := by
  rw [medianAdjacent]
  exact median_mem less l (x-1) x (x+1) s

theorem choosePivot_mem (l : List α) (a b : Nat) (hab : 2 ≤ b - a) :
    a ≤ (choosePivot less l a b).1 ∧ (choosePivot less l a b).1 < b := by
  rw [choosePivot]
  by_cases h8 : b - a ≥ 8
  · rw [if_pos h8]
    by_cases h50 : b - a ≥ 50
    · rw [if_pos h50]
      try dsimp only
      have m1 := medianAdjacent_mem less l (a + (b-a) / 4 * 1) 0
      have m2 := medianAdjacent_mem less l (a + (b-a) / 4 * 2)
        (medianAdjacent less l (a + (b-a) / 4 * 1) 0).2
      have m3 := medianAdjacent_mem less l (a + (b-a) / 4 * 3)
        (medianAdjacent less l (a + (b-a) / 4 * 2)
          (medianAdjacent less l (a + (b-a) / 4 * 1) 0).2).2
      have m4 := median_mem less l (medianAdjacent less l (a + (b-a) / 4 * 1) 0).1
        (medianAdjacent less l (a + (b-a) / 4 * 2)
          (medianAdjacent less l (a + (b-a) / 4 * 1) 0).2).1
        (medianAdjacent less l (a + (b-a) / 4 * 3)
          (medianAdjacent less l (a + (b-a) / 4 * 2)
            (medianAdjacent less l (a + (b-a) / 4 * 1) 0).2).2).1
        (medianAdjacent less l (a + (b-a) / 4 * 3)
          (medianAdjacent less l (a + (b-a) / 4 * 2)
            (medianAdjacent less l (a + (b-a) / 4 * 1) 0).2).2).2
      have hq : (b - a) / 4 * 3 + 1 ≤ b - a - 1 := by omega
      have hq2 : 1 ≤ (b - a) / 4 * 1 := by omega
      split_ifs <;> omega
    · rw [if_neg h50]
      try dsimp only
      have m4 := median_mem less l (a + (b-a) / 4 * 1) (a + (b-a) / 4 * 2)
        (a + (b-a) / 4 * 3) 0
      have hq : (b - a) / 4 * 3 ≤ b - a - 1 := by omega
      split_ifs <;> omega
  · rw [if_neg h8]
    try dsimp only
    have hq : (b - a) / 4 * 2 ≤ b - a - 1 := by omega
    split_ifs <;> omega

end FrameLemmas

section PartitionProofs

variable {α : Type} [Inhabited α] (less : α → α → Bool)

theorem partScanI_spec (l : List α) (pa j : Nat) :
    ∀ (fuel i : Nat), j + 2 ≤ fuel + i → i ≤ j + 1 →
    (i ≤ partScanI less l pa j fuel i ∧ partScanI less l pa j fuel i ≤ j + 1) ∧
    (∀ k, i ≤ k → k < partScanI less l pa j fuel i → less l[k]! l[pa]! = true) ∧
    (partScanI less l pa j fuel i ≤ j →
      less l[partScanI less l pa j fuel i]! l[pa]! = false)
  | 0, i => by omega
  | fuel+1, i => fun hfuel hij => by
    rw [partScanI]
    by_cases hcond : i ≤ j ∧ less l[i]! l[pa]! = true
    · rw [if_pos hcond]
      have hrec := partScanI_spec l pa j fuel (i+1) (by omega) (by omega)
      refine ⟨⟨by omega, hrec.1.2⟩, fun k hk1 hk2 => ?_, hrec.2.2⟩
      rcases Nat.eq_or_lt_of_le hk1 with hk | hk
      · subst hk; exact hcond.2
      · exact hrec.2.1 k (by omega) hk2
    · rw [if_neg hcond]
      refine ⟨⟨le_rfl, by omega⟩, fun k hk1 hk2 => by omega, fun hij' => ?_⟩
      cases hless : less l[i]! l[pa]! with
      | false => rfl
      | true => exact absurd ⟨hij', hless⟩ hcond

theorem partScanJ_spec (l : List α) (pa i : Nat) (hi1 : 1 ≤ i) :
    ∀ (fuel j : Nat), j + 2 ≤ fuel + i → i ≤ j + 1 →
    (partScanJ less l pa i fuel j ≤ j ∧ i ≤ partScanJ less l pa i fuel j + 1) ∧
    (∀ k, partScanJ less l pa i fuel j < k → k ≤ j → less l[k]! l[pa]! = false) ∧
    (i ≤ partScanJ less l pa i fuel j →
      less l[partScanJ less l pa i fuel j]! l[pa]! = true)
  | 0, j => by omega
  | fuel+1, j => fun hfuel hij => by
    rw [partScanJ]
    by_cases hcond : i ≤ j ∧ less l[j]! l[pa]! = false
    · rw [if_pos hcond]
      have hj0 : 1 ≤ j := by omega
      have hrec := partScanJ_spec l pa i hi1 fuel (j-1) (by omega) (by omega)
      refine ⟨⟨by omega, by omega⟩, fun k hk1 hk2 => ?_, hrec.2.2⟩
      rcases Nat.eq_or_lt_of_le hk2 with hk | hk
      · subst hk; exact hcond.2
      · exact hrec.2.1 k hk1 (by omega)
    · rw [if_neg hcond]
      refine ⟨⟨le_rfl, by omega⟩, fun k hk1 hk2 => by omega, fun hij' => ?_⟩
      cases hless : less l[j]! l[pa]! with
      | true => rfl
      | false => exact absurd ⟨hij', hless⟩ hcond

end PartitionProofs

section PartLoopProofs

variable {α : Type} [Inhabited α] (less : α → α → Bool)

theorem partLoop_spec (pa B : Nat) :
    ∀ (fuel i j : Nat) (l : List α),
    B ≤ l.length → pa + 1 ≤ i → i ≤ j + 1 → j + 1 ≤ B → j + 2 ≤ fuel + i →
    (∀ k, pa < k → k < i → less l[k]! l[pa]! = true) →
    (∀ k, j < k → k < B → less l[k]! l[pa]! = false) →
    (pa ≤ (partLoop less pa fuel i j l).1 ∧ (partLoop less pa fuel i j l).1 ≤ j) ∧
    RangeOp l (partLoop less pa fuel i j l).2 (pa+1) (j+1) ∧
    (partLoop less pa fuel i j l).2[pa]! = l[pa]! ∧
    (∀ k, pa < k → k ≤ (partLoop less pa fuel i j l).1 →
      less (partLoop less pa fuel i j l).2[k]! l[pa]! = true) ∧
    (∀ k, (partLoop less pa fuel i j l).1 < k → k < B →
      less (partLoop less pa fuel i j l).2[k]! l[pa]! = false)
  | 0, i, j, l => fun _ _ hij _ hfuel _ _ => absurd hfuel (by omega)
  | fuel+1, i, j, l => fun hB hpai hij hjB hfuel hleft hright => by
    rw [partLoop]
    try dsimp only
    set i' := partScanI less l pa j (j+1) i with hi'def
    obtain ⟨⟨hi1, hi2⟩, hIless, hIstop⟩ :=
      partScanI_spec less l pa j (j+1) i (by omega) hij
    rw [← hi'def] at hi1 hi2 hIless hIstop
    set j' := partScanJ less l pa i' (j+1) j with hj'def
    obtain ⟨⟨hj1, hj2⟩, hJgt, hJstop⟩ :=
      partScanJ_spec less l pa i' (by omega) (j+1) j (by omega) (by omega)
    rw [← hj'def] at hj1 hj2 hJgt hJstop
    by_cases hij' : i' > j'
    · rw [if_pos hij']
      refine ⟨⟨by omega, hj1⟩, RangeOp.refl l (pa+1) (j+1), rfl,
        fun k hk1 hk2 => ?_, fun k hk1 hk2 => ?_⟩
      · by_cases hki : k < i
        · exact hleft k hk1 hki
        · exact hIless k (by omega) (by omega)
      · by_cases hkj : k ≤ j
        · exact hJgt k hk1 hkj
        · exact hright k (by omega) hk2
    · rw [if_neg hij']
      have hstrict : i' < j' := by
        rcases Nat.lt_or_ge i' j' with h | h
        · exact h
        · exfalso
          have he : i' = j' := by omega
          have h1 := hIstop (by omega)
          have h2 := hJstop (by omega)
          rw [he] at h1; rw [h1] at h2; exact Bool.false_ne_true h2
      have hi'len : i' < l.length := by omega
      have hj'len : j' < l.length := by omega
      have hpa' : (lswap l i' j')[pa]! = l[pa]! :=
        getBang_lswap_other l i' j' pa (by omega) (by omega)
      have hfst : (lswap l i' j')[i']! = l[j']! := getBang_lswap_fst l i' j' hi'len hj'len
      have hsnd : (lswap l i' j')[j']! = l[i']! := getBang_lswap_snd l i' j' hi'len hj'len
      have hrec := partLoop_spec pa B fuel (i'+1) (j'-1) (lswap l i' j')
        (by rw [lswap_length]; exact hB) (by omega) (by omega) (by omega) (by omega)
        (fun k hk1 hk2 => by
          rw [hpa']
          rcases Nat.lt_or_ge k i' with hk | hk
          · rw [getBang_lswap_other l i' j' k (by omega) (by omega)]
            by_cases hki : k < i
            · exact hleft k hk1 hki
            · exact hIless k (by omega) (by omega)
          · have hk' : k = i' := by omega
            subst hk'; rw [hfst]; exact hJstop (by omega))
        (fun k hk1 hk2 => by
          rw [hpa']
          rcases Nat.lt_or_ge j' k with hk | hk
          · rw [getBang_lswap_other l i' j' k (by omega) (by omega)]
            by_cases hkj : k ≤ j
            · exact hJgt k hk hkj
            · exact hright k (by omega) hk2
          · have hk' : k = j' := by omega
            subst hk'; rw [hsnd]; exact hIstop (by omega))
      obtain ⟨⟨hr1, hr2⟩, hrop, hrpa, hrleft, hrright⟩ := hrec
      have hswap : RangeOp l (lswap l i' j') (pa+1) (j+1) :=
        lswap_rangeOp l i' j' (pa+1) (j+1) (by omega) (by omega) (by omega) (by omega)
          (by omega)
      refine ⟨⟨hr1, by omega⟩, hswap.trans (hrop.mono (by omega) (by omega)),
        by rw [hrpa, hpa'],
        fun k hk1 hk2 => by rw [← hpa']; exact hrleft k hk1 hk2,
        fun k hk1 hk2 => by rw [← hpa']; exact hrright k hk1 hk2⟩

end PartLoopProofs

section PartitionSpec

variable {α : Type} [Inhabited α] (less : α → α → Bool)

theorem partition_spec (a b pivot : Nat) (l : List α)
    (hb : b ≤ l.length) (hab : a < b) (hp1 : a ≤ pivot) (hp2 : pivot < b) :
    (a ≤ (partition less a b pivot l).1 ∧ (partition less a b pivot l).1 < b) ∧
    RangeOp l (partition less a b pivot l).2.2 a b ∧
    (∀ k, a ≤ k → k < (partition less a b pivot l).1 →
      less (partition less a b pivot l).2.2[k]!
        (partition less a b pivot l).2.2[(partition less a b pivot l).1]! = true) ∧
    (∀ k, (partition less a b pivot l).1 < k → k < b →
      less (partition less a b pivot l).2.2[k]!
        (partition less a b pivot l).2.2[(partition less a b pivot l).1]! = false) := by
  simp only [partition]
  set l1 := lswap l a pivot with hl1def
  have hswap1 : RangeOp l l1 a b := lswap_rangeOp l a pivot a b le_rfl hab hp1 hp2 hb
  have hlen1 : l1.length = l.length := lswap_length l a pivot
  set i0 := partScanI less l1 a (b-1) b (a+1) with hi0def
  obtain ⟨⟨hi1, hi2⟩, hIless, hIstop⟩ :=
    partScanI_spec less l1 a (b-1) b (a+1) (by omega) (by omega)
  rw [← hi0def] at hi1 hi2 hIless hIstop
  set j0 := partScanJ less l1 a i0 b (b-1) with hj0def
  obtain ⟨⟨hj1, hj2⟩, hJgt, hJstop⟩ :=
    partScanJ_spec less l1 a i0 (by omega) b (b-1) (by omega) (by omega)
  rw [← hj0def] at hj1 hj2 hJgt hJstop
  by_cases hij0 : i0 > j0
  · rw [if_pos hij0]
    have hj0len : j0 < l1.length := by omega
    have halen : a < l1.length := by omega
    have hmid : (lswap l1 j0 a)[j0]! = l1[a]! := getBang_lswap_fst l1 j0 a hj0len halen
    refine ⟨⟨by omega, by omega⟩,
      hswap1.trans (lswap_rangeOp l1 j0 a a b (by omega) (by omega) le_rfl hab (by omega)),
      fun k hk1 hk2 => ?_, fun k hk1 hk2 => ?_⟩
    · rw [hmid]
      rcases Nat.eq_or_lt_of_le hk1 with hk | hk
      · rw [← hk, getBang_lswap_snd l1 j0 a hj0len halen]
        exact hIless j0 (by omega) (by omega)
      · rw [getBang_lswap_other l1 j0 a k (by omega) (by omega)]
        exact hIless k (by omega) (by omega)
    · rw [hmid, getBang_lswap_other l1 j0 a k (by omega) (by omega)]
      exact hJgt k hk1 (by omega)
  · rw [if_neg hij0]
    have hstrict : i0 < j0 := by
      rcases Nat.lt_or_ge i0 j0 with h | h
      · exact h
      · exfalso
        have he : i0 = j0 := by omega
        have h1 := hIstop (by omega)
        have h2 := hJstop (by omega)
        rw [he] at h1; rw [h1] at h2; exact Bool.false_ne_true h2
    have hi0len : i0 < l1.length := by omega
    have hj0len : j0 < l1.length := by omega
    set l2 := lswap l1 i0 j0 with hl2def
    have hswap2 : RangeOp l1 l2 a b :=
      lswap_rangeOp l1 i0 j0 a b (by omega) (by omega) (by omega) (by omega) (by omega)
    have hl2a : l2[a]! = l1[a]! := getBang_lswap_other l1 i0 j0 a (by omega) (by omega)
    set pl := partLoop less a b (i0+1) (j0-1) l2 with hpldef
    obtain ⟨⟨hf1, hf2⟩, hfop, hfpa, hfleft, hfright⟩ :=
      partLoop_spec less a b b (i0+1) (j0-1) l2
        (by rw [hl2def, lswap_length]; omega) (by omega) (by omega) (by omega) (by omega)
        (fun k hk1 hk2 => by
          rw [hl2a]
          rcases Nat.lt_or_ge k i0 with hk | hk
          · rw [hl2def, getBang_lswap_other l1 i0 j0 k (by omega) (by omega)]
            exact hIless k (by omega) (by omega)
          · have hk' : k = i0 := by omega
            subst hk'
            rw [hl2def, getBang_lswap_fst l1 i0 j0 hi0len hj0len]
            exact hJstop (by omega))
        (fun k hk1 hk2 => by
          rw [hl2a]
          rcases Nat.lt_or_ge j0 k with hk | hk
          · rw [hl2def, getBang_lswap_other l1 i0 j0 k (by omega) (by omega)]
            exact hJgt k hk (by omega)
          · have hk' : k = j0 := by omega
            subst hk'
            rw [hl2def, getBang_lswap_snd l1 i0 j0 hi0len hj0len]
            exact hIstop (by omega))
    rw [← hpldef] at hf1 hf2 hfop hfpa hfleft hfright
    have hr'len : pl.2.length = l.length := by
      rw [hfop.1, hl2def, lswap_length, hlen1]
    have hjflen : pl.1 < pl.2.length := by omega
    have halen' : a < pl.2.length := by omega
    have hmid : (lswap pl.2 pl.1 a)[pl.1]! = l1[a]! := by
      rw [getBang_lswap_fst pl.2 pl.1 a hjflen halen', hfpa, hl2a]
    refine ⟨⟨hf1, by omega⟩,
      hswap1.trans (hswap2.trans ((hfop.mono (by omega) (by omega)).trans
        (lswap_rangeOp pl.2 pl.1 a a b hf1 (by omega) le_rfl hab (by omega)))),
      fun k hk1 hk2 => ?_, fun k hk1 hk2 => ?_⟩
    · rw [hmid]
      rcases Nat.eq_or_lt_of_le hk1 with hk | hk
      · rw [← hk, getBang_lswap_snd pl.2 pl.1 a hjflen halen']
        rw [← hl2a]
        exact hfleft pl.1 (by omega) le_rfl
      · rw [getBang_lswap_other pl.2 pl.1 a k (by omega) (by omega)]
        rw [← hl2a]
        exact hfleft k (by omega) (by omega)
    · rw [hmid, getBang_lswap_other pl.2 pl.1 a k (by omega) (by omega)]
      rw [← hl2a]
      exact hfright k hk1 hk2

end PartitionSpec

section PartitionEqualProofs

variable {α : Type} [Inhabited α] (less : α → α → Bool)

theorem partEqScanI_spec (l : List α) (pa j : Nat) :
    ∀ (fuel i : Nat), j + 2 ≤ fuel + i → i ≤ j + 1 →
    (i ≤ partEqScanI less l pa j fuel i ∧ partEqScanI less l pa j fuel i ≤ j + 1) ∧
    (∀ k, i ≤ k → k < partEqScanI less l pa j fuel i → less l[pa]! l[k]! = false) ∧
    (partEqScanI less l pa j fuel i ≤ j →
      less l[pa]! l[partEqScanI less l pa j fuel i]! = true)
  | 0, i => by omega
  | fuel+1, i => fun hfuel hij => by
    rw [partEqScanI]
    by_cases hcond : i ≤ j ∧ less l[pa]! l[i]! = false
    · rw [if_pos hcond]
      have hrec := partEqScanI_spec l pa j fuel (i+1) (by omega) (by omega)
      refine ⟨⟨by omega, hrec.1.2⟩, fun k hk1 hk2 => ?_, hrec.2.2⟩
      rcases Nat.eq_or_lt_of_le hk1 with hk | hk
      · subst hk; exact hcond.2
      · exact hrec.2.1 k (by omega) hk2
    · rw [if_neg hcond]
      refine ⟨⟨le_rfl, by omega⟩, fun k hk1 hk2 => by omega, fun hij' => ?_⟩
      cases hless : less l[pa]! l[i]! with
      | true => rfl
      | false => exact absurd ⟨hij', hless⟩ hcond

theorem partEqScanJ_spec (l : List α) (pa i : Nat) (hi1 : 1 ≤ i) :
    ∀ (fuel j : Nat), j + 2 ≤ fuel + i → i ≤ j + 1 →
    (partEqScanJ less l pa i fuel j ≤ j ∧ i ≤ partEqScanJ less l pa i fuel j + 1) ∧
    (∀ k, partEqScanJ less l pa i fuel j < k → k ≤ j → less l[pa]! l[k]! = true) ∧
    (i ≤ partEqScanJ less l pa i fuel j →
      less l[pa]! l[partEqScanJ less l pa i fuel j]! = false)
  | 0, j => by omega
  | fuel+1, j => fun hfuel hij => by
    rw [partEqScanJ]
    by_cases hcond : i ≤ j ∧ less l[pa]! l[j]! = true
    · rw [if_pos hcond]
      have hj0 : 1 ≤ j := by omega
      have hrec := partEqScanJ_spec l pa i hi1 fuel (j-1) (by omega) (by omega)
      refine ⟨⟨by omega, by omega⟩, fun k hk1 hk2 => ?_, hrec.2.2⟩
      rcases Nat.eq_or_lt_of_le hk2 with hk | hk
      · subst hk; exact hcond.2
      · exact hrec.2.1 k hk1 (by omega)
    · rw [if_neg hcond]
      refine ⟨⟨le_rfl, by omega⟩, fun k hk1 hk2 => by omega, fun hij' => ?_⟩
      cases hless : less l[pa]! l[j]! with
      | false => rfl
      | true => exact absurd ⟨hij', hless⟩ hcond

theorem partEqLoop_spec (pa B : Nat) :
    ∀ (fuel i j : Nat) (l : List α),
    B ≤ l.length → pa + 1 ≤ i → i ≤ j + 1 → j + 1 ≤ B → j + 2 ≤ fuel + i →
    (∀ k, pa < k → k < i → less l[pa]! l[k]! = false) →
    (∀ k, j < k → k < B → less l[pa]! l[k]! = true) →
    (pa + 1 ≤ (partEqLoop less pa fuel i j l).1 ∧ (partEqLoop less pa fuel i j l).1 ≤ j + 1) ∧
    RangeOp l (partEqLoop less pa fuel i j l).2 (pa+1) (j+1) ∧
    (partEqLoop less pa fuel i j l).2[pa]! = l[pa]! ∧
    (∀ k, pa < k → k < (partEqLoop less pa fuel i j l).1 →
      less l[pa]! (partEqLoop less pa fuel i j l).2[k]! = false) ∧
    (∀ k, (partEqLoop less pa fuel i j l).1 ≤ k → k < B →
      less l[pa]! (partEqLoop less pa fuel i j l).2[k]! = true)
  | 0, i, j, l => fun _ _ hij _ hfuel _ _ => absurd hfuel (by omega)
  | fuel+1, i, j, l => fun hB hpai hij hjB hfuel hleft hright => by
    rw [partEqLoop]
    try dsimp only
    set i' := partEqScanI less l pa j (j+1) i with hi'def
    obtain ⟨⟨hi1, hi2⟩, hIless, hIstop⟩ :=
      partEqScanI_spec less l pa j (j+1) i (by omega) hij
    rw [← hi'def] at hi1 hi2 hIless hIstop
    set j' := partEqScanJ less l pa i' (j+1) j with hj'def
    obtain ⟨⟨hj1, hj2⟩, hJgt, hJstop⟩ :=
      partEqScanJ_spec less l pa i' (by omega) (j+1) j (by omega) (by omega)
    rw [← hj'def] at hj1 hj2 hJgt hJstop
    by_cases hij' : i' > j'
    · rw [if_pos hij']
      refine ⟨⟨by omega, by omega⟩, RangeOp.refl l (pa+1) (j+1), rfl,
        fun k hk1 hk2 => ?_, fun k hk1 hk2 => ?_⟩
      · by_cases hki : k < i
        · exact hleft k hk1 hki
        · exact hIless k (by omega) (by omega)
      · by_cases hkj : k ≤ j
        · exact hJgt k (by omega) hkj
        · exact hright k (by omega) hk2
    · rw [if_neg hij']
      have hstrict : i' < j' := by
        rcases Nat.lt_or_ge i' j' with h | h
        · exact h
        · exfalso
          have he : i' = j' := by omega
          have h1 := hIstop (by omega)
          have h2 := hJstop (by omega)
          rw [← he] at h2; rw [h2] at h1; exact Bool.false_ne_true h1
      have hi'len : i' < l.length := by omega
      have hj'len : j' < l.length := by omega
      have hpa' : (lswap l i' j')[pa]! = l[pa]! :=
        getBang_lswap_other l i' j' pa (by omega) (by omega)
      have hfst : (lswap l i' j')[i']! = l[j']! := getBang_lswap_fst l i' j' hi'len hj'len
      have hsnd : (lswap l i' j')[j']! = l[i']! := getBang_lswap_snd l i' j' hi'len hj'len
      have hrec := partEqLoop_spec pa B fuel (i'+1) (j'-1) (lswap l i' j')
        (by rw [lswap_length]; exact hB) (by omega) (by omega) (by omega) (by omega)
        (fun k hk1 hk2 => by
          rw [hpa']
          rcases Nat.lt_or_ge k i' with hk | hk
          · rw [getBang_lswap_other l i' j' k (by omega) (by omega)]
            by_cases hki : k < i
            · exact hleft k hk1 hki
            · exact hIless k (by omega) (by omega)
          · have hk' : k = i' := by omega
            subst hk'; rw [hfst]; exact hJstop (by omega))
        (fun k hk1 hk2 => by
          rw [hpa']
          rcases Nat.lt_or_ge j' k with hk | hk
          · rw [getBang_lswap_other l i' j' k (by omega) (by omega)]
            by_cases hkj : k ≤ j
            · exact hJgt k hk hkj
            · exact hright k (by omega) hk2
          · have hk' : k = j' := by omega
            subst hk'; rw [hsnd]; exact hIstop (by omega))
      obtain ⟨⟨hr1, hr2⟩, hrop, hrpa, hrleft, hrright⟩ := hrec
      have hswap : RangeOp l (lswap l i' j') (pa+1) (j+1) :=
        lswap_rangeOp l i' j' (pa+1) (j+1) (by omega) (by omega) (by omega) (by omega)
          (by omega)
      refine ⟨⟨by omega, by omega⟩, hswap.trans (hrop.mono (by omega) (by omega)),
        by rw [hrpa, hpa'],
        fun k hk1 hk2 => by rw [← hpa']; exact hrleft k hk1 hk2,
        fun k hk1 hk2 => by rw [← hpa']; exact hrright k hk1 hk2⟩

theorem partitionEqual_spec
    (hasymm : ∀ x y, less x y = true → less y x = false)
    (a b pivot : Nat) (l : List α)
    (hb : b ≤ l.length) (hab : a < b) (hp1 : a ≤ pivot) (hp2 : pivot < b) :
    (a + 1 ≤ (partitionEqual less a b pivot l).1 ∧ (partitionEqual less a b pivot l).1 ≤ b) ∧
    RangeOp l (partitionEqual less a b pivot l).2 a b ∧
    (∀ k, a ≤ k → k < (partitionEqual less a b pivot l).1 →
      less (partitionEqual less a b pivot l).2[a]!
        (partitionEqual less a b pivot l).2[k]! = false) ∧
    (∀ k, (partitionEqual less a b pivot l).1 ≤ k → k < b →
      less (partitionEqual less a b pivot l).2[a]!
        (partitionEqual less a b pivot l).2[k]! = true) ∧
    (partitionEqual less a b pivot l).2[a]! = l[pivot]! := by
  simp only [partitionEqual]
  set l1 := lswap l a pivot with hl1def
  have hswap1 : RangeOp l l1 a b := lswap_rangeOp l a pivot a b le_rfl hab hp1 hp2 hb
  have hlen1 : l1.length = l.length := lswap_length l a pivot
  obtain ⟨⟨hm1, hm2⟩, hop, hpa, hleft, hright⟩ :=
    partEqLoop_spec less a b b (a+1) (b-1) l1
      (by omega) le_rfl (by omega) (by omega) (by omega)
      (fun k hk1 hk2 => by omega) (fun k hk1 hk2 => by omega)
  have hl1a : l1[a]! = l[pivot]! := getBang_lswap_fst l a pivot (by omega) (by omega)
  refine ⟨⟨hm1, by omega⟩, hswap1.trans (hop.mono (by omega) (by omega)),
    fun k hk1 hk2 => ?_, fun k hk1 hk2 => ?_, by rw [hpa, hl1a]⟩
  · rw [hpa]
    rcases Nat.eq_or_lt_of_le hk1 with hk | hk
    · rw [← hk, hpa]
      cases hself : less l1[a]! l1[a]! with
      | false => rfl
      | true =>
        have h2 := hasymm l1[a]! l1[a]! hself
        rw [hself] at h2
        exact h2
    · exact hleft k (by omega) hk2
  · rw [hpa]
    exact hright k hk1 hk2

end PartitionEqualProofs

section OptimisticProofs

variable {α : Type} [Inhabited α] (less : α → α → Bool)

theorem LowGuard.transfer {a b : Nat} {l r : List α} (h : RangeOp l r a b)
    (hb : b ≤ l.length) (hab : a ≤ b) (hg : LowGuard less l a b) :
    LowGuard less r a b := by
  intro k hk1 hk2 h0
  obtain ⟨k', hk1', hk2', he⟩ := h.exists_src hb hab k hk1 hk2
  rw [he, h.getBang_outside (a-1) (by omega)]
  exact hg k' hk1' hk2' h0

theorem optimisticScan_spec (b : Nat) :
    ∀ (fuel i : Nat) (l : List α), b ≤ fuel + i →
    (i ≤ optimisticScan less b fuel i l) ∧
    (i ≤ b → optimisticScan less b fuel i l ≤ b) ∧
    (∀ k, i ≤ k → k < optimisticScan less b fuel i l → less l[k]! l[k-1]! = false) ∧
    (optimisticScan less b fuel i l < b →
      less l[optimisticScan less b fuel i l]! l[optimisticScan less b fuel i l - 1]! = true)
  | 0, i, l => fun hfuel => by
    rw [optimisticScan]
    exact ⟨le_rfl, fun h => h, fun k hk1 hk2 => by omega, fun h => by omega⟩
  | fuel+1, i, l => fun hfuel => by
    rw [optimisticScan]
    by_cases hcond : i < b ∧ less l[i]! l[i-1]! = false
    · rw [if_pos hcond]
      have hrec := optimisticScan_spec b fuel (i+1) l (by omega)
      refine ⟨by omega, fun _ => hrec.2.1 (by omega), fun k hk1 hk2 => ?_, hrec.2.2.2⟩
      rcases Nat.eq_or_lt_of_le hk1 with hk | hk
      · subst hk; exact hcond.2
      · exact hrec.2.2.1 k (by omega) hk2
    · rw [if_neg hcond]
      refine ⟨le_rfl, fun h => h, fun k hk1 hk2 => by omega, fun hib => ?_⟩
      cases hless : less l[i]! l[i-1]! with
      | true => rfl
      | false => exact absurd ⟨hib, hless⟩ hcond

theorem shiftRightGo_spec (b : Nat) :
    ∀ (fuel j : Nat) (l : List α), 1 ≤ j → b ≤ l.length →
    RangeOp l (shiftRightGo less b fuel j l) (j-1) b
  | 0, j, l => fun _ _ => RangeOp.refl l (j-1) b
  | fuel+1, j, l => fun hj hb => by
    rw [shiftRightGo]
    by_cases hcond : j < b ∧ less l[j]! l[j-1]! = true
    · rw [if_pos hcond]
      have hrec := shiftRightGo_spec b fuel (j+1) (lswap l j (j-1)) (by omega)
        (by rw [lswap_length]; exact hb)
      exact (lswap_rangeOp l j (j-1) (j-1) b (by omega) hcond.1 le_rfl (by omega)
        hb).trans (hrec.mono (by omega) le_rfl)
    · rw [if_neg hcond]
      exact RangeOp.refl l (j-1) b

theorem shiftLeftGo_spec
    (hasymm : ∀ x y, less x y = true → less y x = false)
    (hntrans : ∀ x y z, less y x = false → less z y = false → less z x = false)
    (a b : Nat) :
    ∀ (m : Nat) (l : List α), a ≤ m → m < b → b ≤ l.length →
    AdjSortedRg less l a m → LowGuard less l a b →
    RangeOp l (shiftLeftGo less m l) a (m+1) ∧
    AdjSortedRg less (shiftLeftGo less m l) a (m+1)
  | 0, l => fun ham hmb hb hsorted hguard => by
    rw [shiftLeftGo]
    exact ⟨RangeOp.refl l a 1, fun k hk1 hk2 => by omega⟩
  | m+1, l => fun ham hmb hb hsorted hguard => by
    rw [shiftLeftGo]
    by_cases hcond : less l[m+1]! l[m]! = true
    · rw [if_pos hcond]
      have ham' : a ≤ m := by
        rcases Nat.eq_or_lt_of_le ham with h | h
        · exfalso
          have h0 : 0 < a := by omega
          have := hguard (m+1) (by omega) hmb h0
          rw [show a - 1 = m by omega] at this
          rw [hcond] at this
          exact absurd this (by decide)
        · omega
      have hm1len : m + 1 < l.length := by omega
      have hmlen : m < l.length := by omega
      have hswap : RangeOp l (lswap l (m+1) m) a (m+2) :=
        lswap_rangeOp l (m+1) m a (m+2) (by omega) (by omega) (by omega) (by omega)
          (by omega)
      have hswap' : RangeOp l (lswap l (m+1) m) a b :=
        lswap_rangeOp l (m+1) m a b (by omega) (by omega) (by omega) (by omega) hb
      have hrec := shiftLeftGo_spec hasymm hntrans a b m (lswap l (m+1) m)
        ham' (by omega) (by rw [lswap_length]; exact hb)
        (fun k hk1 hk2 => by
          rw [getBang_lswap_other l (m+1) m k (by omega) (by omega),
            getBang_lswap_other l (m+1) m (k-1) (by omega) (by omega)]
          exact hsorted k hk1 (by omega))
        (LowGuard.transfer less hswap' hb (by omega) hguard)
      obtain ⟨hrop, hradj⟩ := hrec
      have hsortedl : SortedRg less l a (m+1) := adjSorted_to_sorted hntrans l a (m+1) hsorted
      refine ⟨hswap.trans (hrop.mono le_rfl (by omega)), fun k hk1 hk2 => ?_⟩
      rcases Nat.lt_or_ge k (m+1) with hk | hk
      · exact hradj k hk1 hk
      · have hk' : k = m + 1 := by omega
        subst hk'
        have htop : (shiftLeftGo less m (lswap l (m+1) m))[m+1]! = l[m]! := by
          rw [hrop.getBang_outside (m+1) (by omega),
            getBang_lswap_fst l (m+1) m hm1len hmlen]
        rw [htop]
        simp only [Nat.add_sub_cancel]
        obtain ⟨k', hk1', hk2', he⟩ := hrop.exists_src
          (by rw [lswap_length]; omega) (by omega) m (by omega) (by omega)
        rw [he]
        rcases Nat.lt_or_ge k' m with hkk | hkk
        · rw [getBang_lswap_other l (m+1) m k' (by omega) (by omega)]
          exact hsortedl k' m hk1' (by omega) (by omega)
        · have hkk' : k' = m := by omega
          rw [hkk', getBang_lswap_snd l (m+1) m hm1len hmlen]
          exact hasymm l[m+1]! l[m]! hcond
    · rw [if_neg hcond]
      refine ⟨RangeOp.refl l a (m+2), fun k hk1 hk2 => ?_⟩
      rcases Nat.lt_or_ge k (m+1) with hk | hk
      · exact hsorted k hk1 hk
      · have hk' : k = m + 1 := by omega
        subst hk'
        simp only [Nat.add_sub_cancel]
        cases hless : less l[m+1]! l[m]! with
        | false => rfl
        | true => exact absurd hless hcond

end OptimisticProofs

section OptimisticLoopProofs

variable {α : Type} [Inhabited α] (less : α → α → Bool)

theorem optimisticInsSortLoop_spec
    (hasymm : ∀ x y, less x y = true → less y x = false)
    (hntrans : ∀ x y z, less y x = false → less z y = false → less z x = false)
    (a b : Nat) :
    ∀ (steps i : Nat) (l : List α), b ≤ l.length → a + 1 ≤ i → i ≤ b →
    AdjSortedRg less l a i → LowGuard less l a b →
    RangeOp l (optimisticInsSortLoop less a b steps i l).2 a b ∧
    ((optimisticInsSortLoop less a b steps i l).1 = true →
      AdjSortedRg less (optimisticInsSortLoop less a b steps i l).2 a b)
  | 0, i, l => fun hb hi1 hib hsorted hguard => by
    rw [optimisticInsSortLoop]
    exact ⟨RangeOp.refl l a b, fun h => by simp at h⟩
  | steps+1, i, l => fun hb hi1 hib hsorted hguard => by
    rw [optimisticInsSortLoop]
    try dsimp only
    set s := optimisticScan less b b i l with hsdef
    obtain ⟨hs1, hs2p, hspairs, hsstop⟩ := optimisticScan_spec less b b i l (by omega)
    rw [← hsdef] at hs1 hs2p hspairs hsstop
    have hs2 : s ≤ b := hs2p hib
    have hsorted' : AdjSortedRg less l a s := fun k hk1 hk2 => by
      by_cases hki : k < i
      · exact hsorted k hk1 hki
      · exact hspairs k (by omega) hk2
    by_cases hsb : s = b
    · rw [if_pos hsb]
      refine ⟨RangeOp.refl l a b, fun _ => ?_⟩
      rw [← hsb]
      exact hsorted'
    · rw [if_neg hsb]
      by_cases hshort : b - a < 50
      · rw [if_pos hshort]
        exact ⟨RangeOp.refl l a b, fun h => by simp at h⟩
      · rw [if_neg hshort]
        have hsb' : s < b := by omega
        set l1 := lswap l s (s-1) with hl1def
        have hswap : RangeOp l l1 a b :=
          lswap_rangeOp l s (s-1) a b (by omega) hsb' (by omega) (by omega) hb
        have hlen1 : l1.length = l.length := by rw [hl1def, lswap_length]
        have hguard1 : LowGuard less l1 a b :=
          LowGuard.transfer less hswap hb (by omega) hguard
        have hadj1 : AdjSortedRg less l1 a (s-1) := fun k hk1 hk2 => by
          rw [hl1def, getBang_lswap_other l s (s-1) k (by omega) (by omega),
            getBang_lswap_other l s (s-1) (k-1) (by omega) (by omega)]
          exact hsorted' k hk1 (by omega)
        set l2 := if s - a ≥ 2 then shiftLeftGo less (s-1) l1 else l1 with hl2def
        have h2 : RangeOp l1 l2 a s ∧ AdjSortedRg less l2 a s := by
          by_cases hA : s - a ≥ 2
          · rw [hl2def, if_pos hA]
            have hsl := shiftLeftGo_spec less hasymm hntrans a b (s-1) l1
              (by omega) (by omega) (by omega) hadj1 hguard1
            rw [show s - 1 + 1 = s by omega] at hsl
            exact hsl
          · rw [hl2def, if_neg hA]
            refine ⟨RangeOp.refl l1 a s, fun k hk1 hk2 => ?_⟩
            have : s = a + 1 := by omega
            omega
        obtain ⟨hop2, hadj2⟩ := h2
        have hlen2 : l2.length = l.length := by rw [hop2.1, hlen1]
        have hguard2 : LowGuard less l2 a b :=
          LowGuard.transfer less (hswap.trans (hop2.mono le_rfl (by omega))) hb
            (by omega) hguard
        set l3 := if b - s ≥ 2 then shiftRightGo less b b (s+1) l2 else l2 with hl3def
        have h3 : RangeOp l2 l3 s b := by
          by_cases hB : b - s ≥ 2
          · rw [hl3def, if_pos hB]
            have hsr := shiftRightGo_spec less b b (s+1) l2 (by omega) (by omega)
            rw [show s + 1 - 1 = s by omega] at hsr
            exact hsr
          · rw [hl3def, if_neg hB]
            exact RangeOp.refl l2 s b
        have hlen3 : l3.length = l.length := by rw [h3.1, hlen2]
        have hadj3 : AdjSortedRg less l3 a s := fun k hk1 hk2 => by
          rw [h3.getBang_outside k (by omega), h3.getBang_outside (k-1) (by omega)]
          exact hadj2 k hk1 hk2
        have hcomp : RangeOp l l3 a b :=
          hswap.trans ((hop2.mono le_rfl (by omega)).trans (h3.mono (by omega) le_rfl))
        have hguard3 : LowGuard less l3 a b :=
          LowGuard.transfer less hcomp hb (by omega) hguard
        have hrec := optimisticInsSortLoop_spec hasymm hntrans a b steps s l3
          (by omega) (by omega) (by omega) hadj3 hguard3
        exact ⟨hcomp.trans hrec.1, hrec.2⟩

theorem optimisticInsSort_spec
    (hasymm : ∀ x y, less x y = true → less y x = false)
    (hntrans : ∀ x y z, less y x = false → less z y = false → less z x = false)
    (a b : Nat) (l : List α) (hb : b ≤ l.length) (hab : a + 1 ≤ b)
    (hguard : LowGuard less l a b) :
    RangeOp l (optimisticInsSort less a b l).2 a b ∧
    ((optimisticInsSort less a b l).1 = true →
      SortedRg less (optimisticInsSort less a b l).2 a b) := by
  rw [optimisticInsSort]
  have h := optimisticInsSortLoop_spec less hasymm hntrans a b 5 (a+1) l hb le_rfl hab
    (fun k hk1 hk2 => by omega) hguard
  exact ⟨h.1, fun ht => adjSorted_to_sorted hntrans _ a b (h.2 ht)⟩

end OptimisticLoopProofs

section SiftDownProofs

variable {α : Type} [Inhabited α] (less : α → α → Bool)

theorem siftDown_spec
    (hasymm : ∀ x y, less x y = true → less y x = false)
    (hntrans : ∀ x y z, less y x = false → less z y = false → less z x = false)
    (hi first : Nat) :
    ∀ (fuel root : Nat) (l : List α), first + hi ≤ l.length → hi ≤ fuel + root →
    HeapAbove less l first hi (root+1) →
    RangeOp l (siftDown less hi first fuel root l) (first+root) (first+hi) ∧
    (∀ k, k < 2*root+1 → k ≠ root →
      (siftDown less hi first fuel root l)[first+k]! = l[first+k]!) ∧
    HeapAbove less (siftDown less hi first fuel root l) first hi root ∧
    (∀ x, less x l[first+root]! = false →
      (2*root+1 < hi → less x l[first+(2*root+1)]! = false) →
      (2*root+2 < hi → less x l[first+(2*root+2)]! = false) →
      less x (siftDown less hi first fuel root l)[first+root]! = false)
  | 0, root, l => fun hlen hfuel hheap => by
    rw [siftDown]
    refine ⟨RangeOp.refl _ _ _, fun k _ _ => rfl, fun c hc1 hc2 hc3 => ?_,
      fun x hx h1 h2 => hx⟩
    rcases Nat.lt_or_ge ((c-1)/2) (root+1) with h | h
    · omega
    · exact hheap c hc1 hc2 h
  | fuel+1, root, l => fun hlen hfuel hheap => by
    rw [siftDown]
    try dsimp only
    split_ifs with hstop1 hcsel hstop2 hstop2
    -- leaf 1: no child in range
    · refine ⟨RangeOp.refl _ _ _, fun k _ _ => rfl, fun c hc1 hc2 hc3 => ?_,
        fun x hx h1 h2 => hx⟩
      rcases Nat.lt_or_ge ((c-1)/2) (root+1) with h | h
      · omega
      · exact hheap c hc1 hc2 h
    -- leaf 2: bigger child is 2root+2, root already dominates it
    · rw [show first + (2*root+1) + 1 = first + (2*root+2) from by omega,
        show (2*root+1+1 : Nat) = 2*root+2 from by omega] at hcsel
      rw [show (2*root+1+1 : Nat) = 2*root+2 from by omega] at hstop2
      refine ⟨RangeOp.refl _ _ _, fun k _ _ => rfl, fun c hc1 hc2 hc3 => ?_,
        fun x hx h1 h2 => hx⟩
      rcases Nat.lt_or_ge ((c-1)/2) (root+1) with h | h
      · have hc : c = 2*root+1 ∨ c = 2*root+2 := by omega
        rcases hc with hc | hc
        · subst hc
          simp only [show ((2*root+1-1)/2 : Nat) = root from by omega,
            show ((2*root+2-1)/2 : Nat) = root from by omega]
          exact hntrans l[first+(2*root+1)]! l[first+(2*root+2)]! l[first+root]!
            (hasymm _ _ hcsel.2) hstop2
        · subst hc
          simp only [show ((2*root+1-1)/2 : Nat) = root from by omega,
            show ((2*root+2-1)/2 : Nat) = root from by omega]
          exact hstop2
      · exact hheap c hc1 hc2 h
    -- leaf 3: bigger child is 2root+2, swap and recurse
    · rw [show first + (2*root+1) + 1 = first + (2*root+2) from by omega,
        show (2*root+1+1 : Nat) = 2*root+2 from by omega] at hcsel
      rw [show (2*root+1+1 : Nat) = 2*root+2 from by omega] at hstop2 ⊢
      have hswapc : less l[first+root]! l[first+(2*root+2)]! = true := by
        cases h : less l[first+root]! l[first+(2*root+2)]! with
        | true => rfl
        | false => exact absurd h hstop2
      have hrootlen : first + root < l.length := by omega
      have hbiglen : first + (2*root+2) < l.length := by omega
      set l2 := lswap l (first+root) (first+(2*root+2)) with hl2def
      have hl2root : l2[first+root]! = l[first+(2*root+2)]! :=
        getBang_lswap_fst l _ _ hrootlen hbiglen
      have hl2big : l2[first+(2*root+2)]! = l[first+root]! :=
        getBang_lswap_snd l _ _ hrootlen hbiglen
      have hl2other : ∀ k, k ≠ root → k ≠ 2*root+2 → l2[first+k]! = l[first+k]! :=
        fun k h1 h2 => getBang_lswap_other l _ _ _ (by omega) (by omega)
      have hrec := siftDown_spec hasymm hntrans hi first fuel (2*root+2) l2
        (by rw [hl2def, lswap_length]; exact hlen) (by omega)
        (fun c hc1 hc2 hc3 => by
          rw [hl2other c (by omega) (by omega), hl2other ((c-1)/2) (by omega) (by omega)]
          exact hheap c hc1 hc2 (by omega))
      obtain ⟨rop, rframe, rheap, rdom⟩ := hrec
      have hrroot : (siftDown less hi first fuel (2*root+2) l2)[first+root]! =
          l[first+(2*root+2)]! := by
        rw [rframe root (by omega) (by omega), hl2root]
      refine ⟨?_, fun k hk1 hk2 => ?_, fun c hc1 hc2 hc3 => ?_, fun x hx h1 h2 => ?_⟩
      · exact (lswap_rangeOp l (first+root) (first+(2*root+2)) (first+root) (first+hi)
          le_rfl (by omega) (by omega) (by omega) hlen).trans
          (rop.mono (by omega) le_rfl)
      · rw [rframe k (by omega) (by omega), hl2other k hk2 (by omega)]
      · rcases Nat.lt_or_ge ((c-1)/2) (root+1) with h | h
        · have hc : c = 2*root+1 ∨ c = 2*root+2 := by omega
          rcases hc with hc | hc
          · subst hc
            simp only [show ((2*root+1-1)/2 : Nat) = root from by omega,
              show ((2*root+2-1)/2 : Nat) = root from by omega]
            rw [rframe (2*root+1) (by omega) (by omega),
              hl2other (2*root+1) (by omega) (by omega), hrroot]
            exact hasymm _ _ hcsel.2
          · subst hc
            simp only [show ((2*root+1-1)/2 : Nat) = root from by omega,
              show ((2*root+2-1)/2 : Nat) = root from by omega]
            rw [hrroot]
            refine rdom l[first+(2*root+2)]! ?_ ?_ ?_
            · rw [hl2big]; exact hasymm _ _ hswapc
            · intro hin
              rw [hl2other (2*(2*root+2)+1) (by omega) (by omega)]
              have hh := hheap (2*(2*root+2)+1) (by omega) hin (by omega)
              rw [show ((2*(2*root+2)+1-1)/2 : Nat) = 2*root+2 from by omega] at hh
              exact hh
            · intro hin
              rw [hl2other (2*(2*root+2)+2) (by omega) (by omega)]
              have hh := hheap (2*(2*root+2)+2) (by omega) hin (by omega)
              rw [show ((2*(2*root+2)+2-1)/2 : Nat) = 2*root+2 from by omega] at hh
              exact hh
        · rcases Nat.lt_or_ge ((c-1)/2) (2*root+2) with h2 | h2
          · rw [rframe c (by omega) (by omega), hl2other c (by omega) (by omega),
              rframe ((c-1)/2) (by omega) (by omega),
              hl2other ((c-1)/2) (by omega) (by omega)]
            exact hheap c hc1 hc2 (by omega)
          · exact rheap c hc1 hc2 h2
      · rw [hrroot]
        exact h2 hcsel.1
    -- leaf 4: child is 2root+1, root already dominates it
    · refine ⟨RangeOp.refl _ _ _, fun k _ _ => rfl, fun c hc1 hc2 hc3 => ?_,
        fun x hx h1 h2 => hx⟩
      rcases Nat.lt_or_ge ((c-1)/2) (root+1) with h | h
      · have hc : c = 2*root+1 ∨ c = 2*root+2 := by omega
        rcases hc with hc | hc
        · subst hc
          simp only [show ((2*root+1-1)/2 : Nat) = root from by omega,
            show ((2*root+2-1)/2 : Nat) = root from by omega]
          exact hstop2
        · subst hc
          simp only [show ((2*root+1-1)/2 : Nat) = root from by omega,
            show ((2*root+2-1)/2 : Nat) = root from by omega]
          have hc2' : less l[first+(2*root+1)]! l[first+(2*root+1)+1]! = false := by
            cases hl : less l[first+(2*root+1)]! l[first+(2*root+1)+1]! with
            | false => rfl
            | true => exact absurd ⟨by omega, hl⟩ hcsel
          rw [show first + (2*root+1) + 1 = first + (2*root+2) from by omega] at hc2'
          exact hntrans l[first+(2*root+2)]! l[first+(2*root+1)]! l[first+root]!
            hc2' hstop2
      · exact hheap c hc1 hc2 h
    -- leaf 5: child is 2root+1, swap and recurse
    · have hswapc : less l[first+root]! l[first+(2*root+1)]! = true := by
        cases h : less l[first+root]! l[first+(2*root+1)]! with
        | true => rfl
        | false => exact absurd h hstop2
      have hrootlen : first + root < l.length := by omega
      have hbiglen : first + (2*root+1) < l.length := by omega
      set l2 := lswap l (first+root) (first+(2*root+1)) with hl2def
      have hl2root : l2[first+root]! = l[first+(2*root+1)]! :=
        getBang_lswap_fst l _ _ hrootlen hbiglen
      have hl2big : l2[first+(2*root+1)]! = l[first+root]! :=
        getBang_lswap_snd l _ _ hrootlen hbiglen
      have hl2other : ∀ k, k ≠ root → k ≠ 2*root+1 → l2[first+k]! = l[first+k]! :=
        fun k h1 h2 => getBang_lswap_other l _ _ _ (by omega) (by omega)
      have hrec := siftDown_spec hasymm hntrans hi first fuel (2*root+1) l2
        (by rw [hl2def, lswap_length]; exact hlen) (by omega)
        (fun c hc1 hc2 hc3 => by
          rw [hl2other c (by omega) (by omega), hl2other ((c-1)/2) (by omega) (by omega)]
          exact hheap c hc1 hc2 (by omega))
      obtain ⟨rop, rframe, rheap, rdom⟩ := hrec
      have hrroot : (siftDown less hi first fuel (2*root+1) l2)[first+root]! =
          l[first+(2*root+1)]! := by
        rw [rframe root (by omega) (by omega), hl2root]
      refine ⟨?_, fun k hk1 hk2 => ?_, fun c hc1 hc2 hc3 => ?_, fun x hx h1 h2 => ?_⟩
      · exact (lswap_rangeOp l (first+root) (first+(2*root+1)) (first+root) (first+hi)
          le_rfl (by omega) (by omega) (by omega) hlen).trans
          (rop.mono (by omega) le_rfl)
      · rw [rframe k (by omega) (by omega), hl2other k hk2 (by omega)]
      · rcases Nat.lt_or_ge ((c-1)/2) (root+1) with h | h
        · have hc : c = 2*root+1 ∨ c = 2*root+2 := by omega
          rcases hc with hc | hc
          · subst hc
            simp only [show ((2*root+1-1)/2 : Nat) = root from by omega,
              show ((2*root+2-1)/2 : Nat) = root from by omega]
            rw [hrroot]
            refine rdom l[first+(2*root+1)]! ?_ ?_ ?_
            · rw [hl2big]; exact hasymm _ _ hswapc
            · intro hin
              rw [hl2other (2*(2*root+1)+1) (by omega) (by omega)]
              have hh := hheap (2*(2*root+1)+1) (by omega) hin (by omega)
              rw [show ((2*(2*root+1)+1-1)/2 : Nat) = 2*root+1 from by omega] at hh
              exact hh
            · intro hin
              rw [hl2other (2*(2*root+1)+2) (by omega) (by omega)]
              have hh := hheap (2*(2*root+1)+2) (by omega) hin (by omega)
              rw [show ((2*(2*root+1)+2-1)/2 : Nat) = 2*root+1 from by omega] at hh
              exact hh
          · subst hc
            simp only [show ((2*root+1-1)/2 : Nat) = root from by omega,
              show ((2*root+2-1)/2 : Nat) = root from by omega]
            have hc2' : less l[first+(2*root+1)]! l[first+(2*root+1)+1]! = false := by
              cases hl : less l[first+(2*root+1)]! l[first+(2*root+1)+1]! with
              | false => rfl
              | true => exact absurd ⟨by omega, hl⟩ hcsel
            rw [show first + (2*root+1) + 1 = first + (2*root+2) from by omega] at hc2'
            rw [rframe (2*root+2) (by omega) (by omega),
              hl2other (2*root+2) (by omega) (by omega), hrroot]
            exact hc2'
        · rcases Nat.lt_or_ge ((c-1)/2) (2*root+1) with h2 | h2
          · rw [rframe c (by omega) (by omega), hl2other c (by omega) (by omega),
              rframe ((c-1)/2) (by omega) (by omega),
              hl2other ((c-1)/2) (by omega) (by omega)]
            exact hheap c hc1 hc2 (by omega)
          · exact rheap c hc1 hc2 h2
      · rw [hrroot]
        exact h1 (by omega)

end SiftDownProofs

section HeapSortProofs

variable {α : Type} [Inhabited α] (less : α → α → Bool)

theorem heapRoot_dominates
    (hasymm : ∀ x y, less x y = true → less y x = false)
    (hntrans : ∀ x y z, less y x = false → less z y = false → less z x = false)
    (l : List α) (first hi : Nat) (h : HeapAbove less l first hi 0) :
    ∀ k, k < hi → less l[first]! l[first+k]! = false := by
  intro k
  induction k using Nat.strong_induction_on with
  | _ k ih =>
    intro hk
    rcases Nat.eq_zero_or_pos k with hk0 | hk0
    · subst hk0
      rw [Nat.add_zero]
      cases hself : less l[first]! l[first]! with
      | false => rfl
      | true =>
        have h2 := hasymm _ _ hself
        rw [hself] at h2
        exact h2
    · have hedge := h k (by omega) hk (Nat.zero_le _)
      have hup := ih ((k-1)/2) (by omega) (by omega)
      exact hntrans l[first+k]! l[first+(k-1)/2]! l[first]! hedge hup

theorem heapSortBuild_spec
    (hasymm : ∀ x y, less x y = true → less y x = false)
    (hntrans : ∀ x y z, less y x = false → less z y = false → less z x = false)
    (hi first : Nat) :
    ∀ (n : Nat) (l : List α), first + hi ≤ l.length →
    HeapAbove less l first hi n →
    RangeOp l (heapSortBuild less hi first n l) first (first+hi) ∧
    HeapAbove less (heapSortBuild less hi first n l) first hi 0
  | 0, l => fun hlen hheap => by
    rw [heapSortBuild]
    exact ⟨RangeOp.refl _ _ _, hheap⟩
  | n+1, l => fun hlen hheap => by
    rw [heapSortBuild]
    obtain ⟨rop, rframe, rheap, rdom⟩ :=
      siftDown_spec less hasymm hntrans hi first (hi+1) n l hlen (by omega) hheap
    obtain ⟨bop, bheap⟩ := heapSortBuild_spec hasymm hntrans hi first n
      (siftDown less hi first (hi+1) n l) (by rw [rop.1]; exact hlen) rheap
    exact ⟨(rop.mono (by omega) le_rfl).trans bop, bheap⟩

theorem heapSortPop_spec
    (hasymm : ∀ x y, less x y = true → less y x = false)
    (hntrans : ∀ x y z, less y x = false → less z y = false → less z x = false)
    (first N : Nat) :
    ∀ (n : Nat) (l : List α), n ≤ N → first + N ≤ l.length →
    HeapAbove less l first n 0 →
    SuffixMax less l first n N →
    RangeOp l (heapSortPop less first n l) first (first+n) ∧
    SuffixMax less (heapSortPop less first n l) first 0 N
  | 0, l => fun hnN hlen hheap hsuf => by
    rw [heapSortPop]
    exact ⟨RangeOp.refl _ _ _, hsuf⟩
  | n+1, l => fun hnN hlen hheap hsuf => by
    rw [heapSortPop]
    have hflen : first < l.length := by omega
    have hnlen : first + n < l.length := by omega
    set l1 := lswap l first (first+n) with hl1def
    have hswap : RangeOp l l1 first (first+(n+1)) :=
      lswap_rangeOp l first (first+n) first (first+(n+1)) le_rfl (by omega)
        (by omega) (by omega) (by omega)
    have hl1len : l1.length = l.length := lswap_length _ _ _
    have hl1top : l1[first+n]! = l[first]! :=
      getBang_lswap_snd l first (first+n) hflen hnlen
    have hl1other : ∀ k, k ≠ 0 → k ≠ n → l1[first+k]! = l[first+k]! :=
      fun k h1 h2 => getBang_lswap_other l _ _ _ (by omega) (by omega)
    obtain ⟨sop, sframe, sheap, sdom⟩ :=
      siftDown_spec less hasymm hntrans n first (n+1) 0 l1
        (by omega) (by omega)
        (fun c hc1 hc2 hc3 => by
          rw [hl1other c (by omega) (by omega), hl1other ((c-1)/2) (by omega) (by omega)]
          exact hheap c hc1 (by omega) (Nat.zero_le _))
    set sd := siftDown less n first (n+1) 0 l1 with hsddef
    have hsdlen : sd.length = l.length := by rw [hsddef, sop.1, hl1len]
    have hcomp : RangeOp l sd first (first+(n+1)) :=
      hswap.trans (sop.mono (by omega) (by omega))
    have hsufnew : SuffixMax less sd first n N := by
      intro k hk1 hk2 m hm
      have hkval : sd[first+k]! = (if k = n then l[first]! else l[first+k]!) := by
        by_cases hkn : k = n
        · rw [if_pos hkn, hkn, ← hl1top, hsddef]
          exact sop.getBang_outside (first+n) (by omega)
        · rw [if_neg hkn]
          exact hcomp.getBang_outside (first+k) (by omega)
      rcases Nat.lt_or_ge m (n+1) with hmlt | hmge
      · obtain ⟨k', hk1', hk2', he⟩ := hcomp.exists_src (by omega) (by omega)
          (first+m) (by omega) (by omega)
        rw [he, hkval]
        by_cases hkn : k = n
        · rw [if_pos hkn]
          have hd := heapRoot_dominates less hasymm hntrans l first (n+1)
            hheap (k'-first) (by omega)
          rw [show first + (k'-first) = k' from by omega] at hd
          exact hd
        · rw [if_neg hkn]
          have hs := hsuf k (by omega) hk2 (k'-first) (by omega)
          rw [show first + (k'-first) = k' from by omega] at hs
          exact hs
      · have hmval : sd[first+m]! = l[first+m]! :=
          hcomp.getBang_outside (first+m) (by omega)
        rw [hmval, hkval]
        by_cases hkn : k = n
        · omega
        · rw [if_neg hkn]
          exact hsuf k (by omega) hk2 m hm
    obtain ⟨pop, psuf⟩ := heapSortPop_spec hasymm hntrans first N n sd (by omega)
      (by omega) sheap hsufnew
    exact ⟨hcomp.trans (pop.mono le_rfl (by omega)), psuf⟩

theorem heapSort_spec
    (hasymm : ∀ x y, less x y = true → less y x = false)
    (hntrans : ∀ x y z, less y x = false → less z y = false → less z x = false)
    (a b : Nat) (l : List α) (hb : b ≤ l.length) (hab : a ≤ b) :
    RangeOp l (heapSort less a b l) a b ∧ SortedRg less (heapSort less a b l) a b := by
  rw [heapSort]
  obtain ⟨bop, bheap⟩ := heapSortBuild_spec less hasymm hntrans (b-a) a ((b-a-1)/2+1) l
    (by omega) (fun c hc1 hc2 hc3 => absurd hc3 (by omega))
  obtain ⟨pop, psuf⟩ := heapSortPop_spec less hasymm hntrans a (b-a) (b-a)
    (heapSortBuild less (b-a) a ((b-a-1)/2+1) l) le_rfl (by rw [bop.1]; omega)
    bheap (fun k hk1 hk2 m hm => absurd hk2 (by omega))
  constructor
  · have h := bop.trans pop
    rw [show a + (b-a) = b from by omega] at h
    exact h
  · intro i j hai hij hjb
    have hs := psuf (j-a) (Nat.zero_le _) (by omega) (i-a) (by omega)
    rw [show a + (j-a) = j from by omega, show a + (i-a) = i from by omega] at hs
    exact hs

end HeapSortProofs

section PdqSortLoopProofs

variable {α : Type} [Inhabited α] (less : α → α → Bool)

theorem sorted_glue
    (hasymm : ∀ x y, less x y = true → less y x = false)
    (hntrans : ∀ x y z, less y x = false → less z y = false → less z x = false)
    {P O : List α} {a b mid : Nat}
    (hmid1 : a ≤ mid) (hmid2 : mid < b)
    (hOmid : O[mid]! = P[mid]!)
    (hsortL : SortedRg less O a mid) (hsortR : SortedRg less O (mid+1) b)
    (hsrcL : ∀ k, a ≤ k → k < mid → ∃ kk, a ≤ kk ∧ kk < mid ∧ O[k]! = P[kk]!)
    (hsrcR : ∀ k, mid < k → k < b → ∃ kk, mid < kk ∧ kk < b ∧ O[k]! = P[kk]!)
    (hPleft : ∀ k, a ≤ k → k < mid → less P[k]! P[mid]! = true)
    (hPright : ∀ k, mid < k → k < b → less P[k]! P[mid]! = false) :
    SortedRg less O a b := by
  have hlow : ∀ i, a ≤ i → i < mid → less P[mid]! O[i]! = false := fun i h1 h2 => by
    obtain ⟨kk, hk1, hk2, he⟩ := hsrcL i h1 h2
    rw [he]
    exact hasymm _ _ (hPleft kk hk1 hk2)
  have hhigh : ∀ j, mid < j → j < b → less O[j]! P[mid]! = false := fun j h1 h2 => by
    obtain ⟨kk, hk1, hk2, he⟩ := hsrcR j h1 h2
    rw [he]
    exact hPright kk hk1 hk2
  intro i j hai hij hjb
  rcases Nat.lt_trichotomy j mid with hj | hj | hj
  · exact hsortL i j hai hij hj
  · subst hj
    rw [hOmid]
    exact hlow i hai hij
  · rcases Nat.lt_trichotomy i mid with hi | hi | hi
    · exact hntrans O[i]! P[mid]! O[j]! (hlow i hai hi) (hhigh j hj hjb)
    · subst hi
      rw [hOmid]
      exact hhigh j hj hjb
    · exact hsortR i j (by omega) hij hjb

theorem pdqsortLoop_spec
    (hasymm : ∀ x y, less x y = true → less y x = false)
    (hntrans : ∀ x y z, less y x = false → less z y = false → less z x = false) :
    ∀ (fuel a b limit : Nat) (wb wp : Bool) (l : List α),
    b ≤ l.length → b - a ≤ fuel → LowGuard less l a b →
    RangeOp l (pdqsortLoop less fuel a b limit wb wp l) a b ∧
    SortedRg less (pdqsortLoop less fuel a b limit wb wp l) a b
  | 0, a, b, limit, wb, wp, l => fun hb hfuel hguard => by
    rw [pdqsortLoop]
    exact ⟨RangeOp.refl _ _ _, fun i j h1 h2 h3 => by omega⟩
  | fuel+1, a, b, limit, wb, wp, l => fun hb hfuel hguard => by
    rw [pdqsortLoop]
    try dsimp only
    by_cases h12 : b - a ≤ 12
    · rw [if_pos h12]
      obtain ⟨hop, hadj⟩ := insertionSort_spec hasymm a b l hb
      exact ⟨hop, adjSorted_to_sorted hntrans _ a b hadj⟩
    · rw [if_neg h12]
      by_cases hlim : limit = 0
      · rw [if_pos hlim]
        exact heapSort_spec less hasymm hntrans a b l hb (by omega)
      · rw [if_neg hlim]
        set l1 := if wb = false then breakPatterns a b l else l with hl1def
        set limit1 := if wb = false then limit - 1 else limit with hlimit1def
        have hop1 : RangeOp l l1 a b := by
          rw [hl1def]
          split_ifs
          · exact breakPatterns_rangeOp a b l hb
          · exact RangeOp.refl l a b
        have hlen1 : l1.length = l.length := hop1.1
        set ph := choosePivot less l1 a b with hphdef
        have hpm : a ≤ ph.1 ∧ ph.1 < b := choosePivot_mem less l1 a b (by omega)
        set l2 := if ph.2 = SortedHint.decreasingHint then reverseRange a b l1 else l1
          with hl2def
        have hop2 : RangeOp l1 l2 a b := by
          rw [hl2def]
          split_ifs
          · exact reverseRange_rangeOp a b l1 (by omega)
          · exact RangeOp.refl l1 a b
        have hlen2 : l2.length = l.length := by rw [hop2.1, hlen1]
        set pivot := if ph.2 = SortedHint.decreasingHint then (b-1) - (ph.1 - a) else ph.1
          with hpivotdef
        have hpivot : a ≤ pivot ∧ pivot < b := by
          rw [hpivotdef]
          split_ifs
          · omega
          · exact hpm
        set hint := if ph.2 = SortedHint.decreasingHint then SortedHint.increasingHint
          else ph.2 with hhintdef
        have hguard2 : LowGuard less l2 a b :=
          LowGuard.transfer less (hop1.trans hop2) hb (by omega) hguard
        set sl := if wb = true ∧ wp = true ∧ hint = SortedHint.increasingHint then
          optimisticInsSort less a b l2 else (false, l2) with hsldef
        have hopsl : RangeOp l2 sl.2 a b := by
          rw [hsldef]
          split_ifs
          · exact (optimisticInsSort_spec less hasymm hntrans a b l2 (by omega)
              (by omega) hguard2).1
          · exact RangeOp.refl l2 a b
        have hsltrue : sl.1 = true → SortedRg less sl.2 a b := by
          rw [hsldef]
          split_ifs
          · exact fun h => (optimisticInsSort_spec less hasymm hntrans a b l2 (by omega)
              (by omega) hguard2).2 h
          · exact fun h => by simp at h
        have hlensl : sl.2.length = l.length := by rw [hopsl.1, hlen2]
        have hopL : RangeOp l sl.2 a b := (hop1.trans hop2).trans hopsl
        have hguardsl : LowGuard less sl.2 a b :=
          LowGuard.transfer less hopL hb (by omega) hguard
        by_cases hret : sl.1 = true
        · rw [if_pos hret]
          exact ⟨hopL, hsltrue hret⟩
        · rw [if_neg hret]
          by_cases hceq : 0 < a ∧ less sl.2[a-1]! sl.2[pivot]! = false
          · rw [if_pos hceq]
            obtain ⟨⟨hm1, hm2⟩, hEop, hEleft, hEright, hEa⟩ :=
              partitionEqual_spec less hasymm a b pivot sl.2 (by omega) (by omega)
                hpivot.1 hpivot.2
            set E := (partitionEqual less a b pivot sl.2).2 with hEdef
            set m := (partitionEqual less a b pivot sl.2).1 with hmdef
            have hlenE : E.length = l.length := by rw [hEop.1, hlensl]
            have hAll : ∀ k, a ≤ k → k < b → less E[k]! E[a]! = false := by
              intro k hk1 hk2
              obtain ⟨kk, hkk1, hkk2, he⟩ := hEop.exists_src (by omega) (by omega)
                k hk1 hk2
              rw [he, hEa]
              exact hntrans sl.2[pivot]! sl.2[a-1]! sl.2[kk]! hceq.2
                (hguardsl kk hkk1 hkk2 hceq.1)
            obtain ⟨hRop, hRsort⟩ := pdqsortLoop_spec hasymm hntrans fuel m b
              limit1 wb wp E (by omega) (by omega)
              (by
                intro k hk1 hk2 h0
                have hk' : less E[k]! E[a]! = false := hAll k (by omega) hk2
                have hm' : less E[a]! E[m-1]! = false := hEleft (m-1) (by omega) (by omega)
                exact hntrans E[m-1]! E[a]! E[k]! hm' hk')
            have hlenR : (pdqsortLoop less fuel m b limit1 wb wp E).length = l.length := by
              rw [hRop.1, hlenE]
            refine ⟨hopL.trans (hEop.trans (hRop.mono (by omega) le_rfl)), ?_⟩
            intro i j hai hij hjb
            rcases Nat.lt_or_ge i m with hi | hi
            · have hri : (pdqsortLoop less fuel m b limit1 wb wp E)[i]! = E[i]! :=
                hRop.getBang_outside i (by omega)
              rcases Nat.lt_or_ge j m with hj | hj
              · have hrj : (pdqsortLoop less fuel m b limit1 wb wp E)[j]! = E[j]! :=
                  hRop.getBang_outside j (by omega)
                rw [hri, hrj]
                exact hntrans E[i]! E[a]! E[j]! (hEleft i hai (by omega))
                  (hAll j (by omega) hjb)
              · obtain ⟨kk, hkk1, hkk2, he⟩ := hRop.exists_src (by omega) (by omega)
                  j hj hjb
                rw [hri, he]
                exact hntrans E[i]! E[a]! E[kk]! (hEleft i hai (by omega))
                  (hAll kk (by omega) hkk2)
            · exact hRsort i j hi hij hjb
          · rw [if_neg hceq]
            obtain ⟨⟨hmid1, hmid2⟩, hPop, hPleft, hPright⟩ :=
              partition_spec less a b pivot sl.2 (by omega) (by omega)
                hpivot.1 hpivot.2
            set P := (partition less a b pivot sl.2).2.2 with hPdef
            set mid := (partition less a b pivot sl.2).1 with hmiddef
            have hlenP : P.length = l.length := by rw [hPop.1, hlensl]
            have hguardP : LowGuard less P a b :=
              LowGuard.transfer less (hopL.trans hPop) hb (by omega) hguard
            have hguardPL : LowGuard less P a mid :=
              fun k h1 h2 h0 => hguardP k h1 (by omega) h0
            have hguardPR : LowGuard less P (mid+1) b := by
              intro k h1 h2 h0
              rw [show mid+1-1 = mid from by omega]
              exact hPright k (by omega) h2
            by_cases hlr : mid - a < b - mid
            · rw [if_pos hlr]
              obtain ⟨hIop, hIsort⟩ := pdqsortLoop_spec hasymm hntrans fuel a mid
                limit1 true true P (by omega) (by omega) hguardPL
              set I := pdqsortLoop less fuel a mid limit1 true true P with hIdef
              have hlenI : I.length = l.length := by rw [hIop.1, hlenP]
              have hImid : I[mid]! = P[mid]! := hIop.getBang_outside mid (by omega)
              obtain ⟨hOop, hOsort⟩ := pdqsortLoop_spec hasymm hntrans fuel (mid+1) b
                limit1 (decide (min (mid - a) (b - mid) ≥ (b-a)/8))
                (partition less a b pivot sl.2).2.1 I (by omega) (by omega)
                (by
                  intro k hk1 hk2 h0
                  rw [show mid+1-1 = mid from by omega, hImid,
                    hIop.getBang_outside k (by omega)]
                  exact hPright k (by omega) hk2)
              set O := pdqsortLoop less fuel (mid+1) b limit1
                (decide (min (mid - a) (b - mid) ≥ (b-a)/8))
                (partition less a b pivot sl.2).2.1 I with hOdef
              refine ⟨hopL.trans (hPop.trans ((hIop.mono le_rfl (by omega)).trans
                (hOop.mono (by omega) le_rfl))), ?_⟩
              refine sorted_glue less hasymm hntrans hmid1 hmid2 ?_ ?_ hOsort ?_ ?_
                hPleft hPright
              · rw [hOop.getBang_outside mid (by omega), hImid]
              · intro i j h1 h2 h3
                rw [hOop.getBang_outside i (by omega), hOop.getBang_outside j (by omega)]
                exact hIsort i j h1 h2 h3
              · intro k hk1 hk2
                obtain ⟨kk, hkk1, hkk2, he⟩ := hIop.exists_src (by omega) (by omega)
                  k hk1 hk2
                exact ⟨kk, hkk1, hkk2, by
                  rw [hOop.getBang_outside k (by omega)]; exact he⟩
              · intro k hk1 hk2
                obtain ⟨kk, hkk1, hkk2, he⟩ := hOop.exists_src (by omega) (by omega)
                  k (by omega) hk2
                exact ⟨kk, by omega, hkk2, by
                  rw [he]; exact hIop.getBang_outside kk (by omega)⟩
            · rw [if_neg hlr]
              obtain ⟨hIop, hIsort⟩ := pdqsortLoop_spec hasymm hntrans fuel (mid+1) b
                limit1 true true P (by omega) (by omega) hguardPR
              set I := pdqsortLoop less fuel (mid+1) b limit1 true true P with hIdef
              have hlenI : I.length = l.length := by rw [hIop.1, hlenP]
              have hImid : I[mid]! = P[mid]! := hIop.getBang_outside mid (by omega)
              obtain ⟨hOop, hOsort⟩ := pdqsortLoop_spec hasymm hntrans fuel a mid
                limit1 (decide (min (mid - a) (b - mid) ≥ (b-a)/8))
                (partition less a b pivot sl.2).2.1 I (by omega) (by omega)
                (by
                  intro k hk1 hk2 h0
                  rw [hIop.getBang_outside k (by omega),
                    hIop.getBang_outside (a-1) (by omega)]
                  exact hguardPL k hk1 hk2 h0)
              set O := pdqsortLoop less fuel a mid limit1
                (decide (min (mid - a) (b - mid) ≥ (b-a)/8))
                (partition less a b pivot sl.2).2.1 I with hOdef
              refine ⟨hopL.trans (hPop.trans ((hIop.mono (by omega) le_rfl).trans
                (hOop.mono le_rfl (by omega)))), ?_⟩
              refine sorted_glue less hasymm hntrans hmid1 hmid2 ?_ hOsort ?_ ?_ ?_
                hPleft hPright
              · rw [hOop.getBang_outside mid (by omega), hImid]
              · intro i j h1 h2 h3
                rw [hOop.getBang_outside i (by omega), hOop.getBang_outside j (by omega)]
                exact hIsort i j h1 h2 h3
              · intro k hk1 hk2
                obtain ⟨kk, hkk1, hkk2, he⟩ := hOop.exists_src (by omega) (by omega)
                  k hk1 hk2
                exact ⟨kk, hkk1, hkk2, by
                  rw [he]; exact hIop.getBang_outside kk (by omega)⟩
              · intro k hk1 hk2
                obtain ⟨kk, hkk1, hkk2, he⟩ := hIop.exists_src (by omega) (by omega)
                  k (by omega) hk2
                exact ⟨kk, by omega, hkk2, by
                  rw [hOop.getBang_outside k (by omega)]; exact he⟩

end PdqSortLoopProofs

section SortEntryProofs

variable {α : Type} [Inhabited α] (less : α → α → Bool)

theorem goSortSlice_spec
    (hasymm : ∀ x y, less x y = true → less y x = false)
    (hntrans : ∀ x y z, less y x = false → less z y = false → less z x = false)
    (l : List α) :
    RangeOp l (goSortSlice less l) 0 l.length ∧
    SortedRg less (goSortSlice less l) 0 l.length := by
  rw [goSortSlice, pdqsort]
  exact pdqsortLoop_spec less hasymm hntrans (l.length - 0) 0 l.length
    (bitsLen l.length) true true l le_rfl le_rfl
    (fun k h1 h2 h0 => absurd h0 (by omega))

end SortEntryProofs

theorem validatorLess_asymm :
    ∀ x y : Validator, validatorLess x y = true → validatorLess y x = false := by
  intro x y h
  cases hx : x.isBonded <;> cases hy : y.isBonded <;>
    simp [validatorLess, hx, hy] at h ⊢ <;> omega

theorem validatorLess_ntrans :
    ∀ x y z : Validator, validatorLess y x = false → validatorLess z y = false →
      validatorLess z x = false := by
  intro x y z h1 h2
  cases hx : x.isBonded <;> cases hy : y.isBonded <;> cases hz : z.isBonded <;>
    simp [validatorLess, hx, hy, hz] at h1 h2 ⊢ <;> omega

theorem sortValidators_length (vs : List Validator) :
    (sortValidators vs).length = vs.length := by
  rw [sortValidators]
  exact (goSortSlice_spec validatorLess validatorLess_asymm validatorLess_ntrans vs).1.1

theorem sortValidators_pair (vs : List Validator) (i j : Nat) (hij : i < j)
    (hj : j < (sortValidators vs).length) :
    validatorLess (sortValidators vs)[j]! (sortValidators vs)[i]! = false := by
  have hlen := sortValidators_length vs
  have h := (goSortSlice_spec validatorLess validatorLess_asymm validatorLess_ntrans vs).2
  rw [sortValidators] at hlen hj ⊢
  exact h i j (Nat.zero_le _) hij (by omega)

/-- C1: in the sorted output, every Bonded validator precedes every non-Bonded
validator regardless of shares, and among validators of equal bonded-state the
exact integer delegator-share amounts are non-increasing. -/
theorem sortValidators_bonded_first_and_shares_descending
    (vs : List Validator) (i j : Nat) (hij : i < j)
    (hj : j < (sortValidators vs).length) :
    ((sortValidators vs)[j]!.isBonded = true →
      (sortValidators vs)[i]!.isBonded = true) ∧
    ((sortValidators vs)[i]!.isBonded = (sortValidators vs)[j]!.isBonded →
      (sortValidators vs)[j]!.delegatorShares ≤
        (sortValidators vs)[i]!.delegatorShares) := by
  have hless := sortValidators_pair vs i j hij hj
  cases hbi : (sortValidators vs)[i]!.isBonded <;>
    cases hbj : (sortValidators vs)[j]!.isBonded <;>
    simp [validatorLess, hbi, hbj] at hless ⊢ <;> omega

/-- Witness for C1 at the concrete two-validator input `c1WitnessList`. -/
theorem sortValidators_bonded_first_and_shares_descending_witness :
    (0 < 1 ∧ 1 < (sortValidators c1WitnessList).length) ∧
    (((sortValidators c1WitnessList)[1]!.isBonded = true →
      (sortValidators c1WitnessList)[0]!.isBonded = true) ∧
    ((sortValidators c1WitnessList)[0]!.isBonded =
        (sortValidators c1WitnessList)[1]!.isBonded →
      (sortValidators c1WitnessList)[1]!.delegatorShares ≤
        (sortValidators c1WitnessList)[0]!.delegatorShares)) :=
  ⟨⟨by decide, by decide⟩,
    sortValidators_bonded_first_and_shares_descending c1WitnessList 0 1
      (by decide) (by decide)⟩

/-- C2 (amended): the sort output is a permutation of the collected input. -/
theorem sortValidators_perm_of_input (vs : List Validator) :
    (sortValidators vs).Perm vs := by
  rw [sortValidators]
  exact (goSortSlice_spec validatorLess validatorLess_asymm validatorLess_ntrans
    vs).1.2.2
